import Mathlib

/-!
Verification of the nano_sipyco NDSP server (src/nano_sipyco.py) against its
natural-language specification.

The development shallowly embeds the program:

* `Value` is the PYON value domain (string, integer, float, boolean, None,
  list, tuple, set, dict, arbitrarily nested).
  A finite Python float is determined by the shortest decimal that reads back
  to it — exactly the content of its `repr` — and two finite floats are equal
  exactly when those decimals are equal; `PyFloat` carries that decimal (sign,
  significand without trailing zeros, base-ten exponent) and so covers every
  finite float of the program.  Non-finite floats are outside the model:
  `repr` prints them as `inf`/`nan`, names `eval` does not read back, so the
  program does not round-trip them either.  Reading a float literal is
  modelled as reading its decimal value; a literal carrying more significant
  digits than any shortest form names no model float of the program, and no
  claim depends on one.
  Python sets and dicts are modelled as lists in iteration order (Python dicts
  preserve insertion order; for sets the model fixes the iteration order to be
  the order of the modelled list).
* `MyPyon.encode` embeds `MyPyon.encode = repr(obj)` character by character
  (quote selection, escaping, and the rendering of every container form).
  Printability is modelled exactly for the ASCII range; characters at or above
  code point 128 are treated as printable (the Python method str.isprintable differs
  on some Unicode categories, which no claim depends on).
* `MyPyon.decode` embeds `MyPyon.decode` as used by the handler: the input is
  a decoded text line, and `eval` on a line of the literal value grammar is
  modelled by a recursive-descent parser for exactly that grammar (the spec
  describes decode as parsing "a literal expression in the Value grammar").
  On non-literal expressions real `eval` can compute or have side effects;
  the model treats such lines as parse failures.
* The dispatcher, envelope layer and per-connection state machine of
  `NanoNDSPHandler` are embedded over an explicit `Target`/registry model,
  with the byte stream abstracted as the list of received lines (as returned
  by `readline`, trailing newline included) and the list of written lines.
-/

/-- A finite Python float, represented by the decimal its shortest `repr`
prints: a sign, the significand digits without trailing zeros (`lead`
digits followed by one final nonzero digit `last + 1`), and a base-ten
exponent, so the value is `±(lead * 10 + last + 1) * 10 ^ e`; the signed
zero is a separate case.  Every finite float of the program is determined
by this data, and every inhabitant is in canonical form by construction. -/
inductive PyFloat where
  | zero (neg : Bool)
  | finite (neg : Bool) (lead : Nat) (last : Fin 9) (e : Int)
  deriving DecidableEq

/-- The PYON value domain: Python str, int, float, bool, None, list, tuple,
set, dict. -/
inductive Value where
  | str : String → Value
  | int : Int → Value
  | float : PyFloat → Value
  | bool : Bool → Value
  | pyNone : Value
  | list : List Value → Value
  | tuple : List Value → Value
  | set : List Value → Value
  | dict : List (Value × Value) → Value

mutual
/-- Structural equality test on values (Python `==` restricted to the Value
domain, where it is structural). -/
def Value.beq : Value → Value → Bool
  | .str a, .str b => a == b
  | .int a, .int b => a == b
  | .float a, .float b => decide (a = b)
  | .bool a, .bool b => a == b
  | .pyNone, .pyNone => true
  | .list a, .list b => Value.beqList a b
  | .tuple a, .tuple b => Value.beqList a b
  | .set a, .set b => Value.beqList a b
  | .dict a, .dict b => Value.beqPairs a b
  | _, _ => false

def Value.beqList : List Value → List Value → Bool
  | [], [] => true
  | a :: as, b :: bs => Value.beq a b && Value.beqList as bs
  | _, _ => false

def Value.beqPairs : List (Value × Value) → List (Value × Value) → Bool
  | [], [] => true
  | (k, v) :: ps, (l, w) :: qs => Value.beq k l && Value.beq v w && Value.beqPairs ps qs
  | _, _ => false
end

mutual
theorem Value.beq_iff : ∀ (a b : Value), Value.beq a b = true ↔ a = b
  | a, b => by
    cases a <;> cases b <;>
      simp only [Value.beq, beq_iff_eq, decide_eq_true_eq] <;>
      try simp
    case list.list a b => rw [Value.beqList_iff a b]
    case tuple.tuple a b => rw [Value.beqList_iff a b]
    case set.set a b => rw [Value.beqList_iff a b]
    case dict.dict a b => rw [Value.beqPairs_iff a b]

theorem Value.beqList_iff : ∀ (as bs : List Value), Value.beqList as bs = true ↔ as = bs
  | [], [] => by simp [Value.beqList]
  | [], _ :: _ => by simp [Value.beqList]
  | _ :: _, [] => by simp [Value.beqList]
  | a :: as, b :: bs => by
    simp only [Value.beqList, Bool.and_eq_true, Value.beq_iff a b, Value.beqList_iff as bs]
    simp

theorem Value.beqPairs_iff : ∀ (ps qs : List (Value × Value)),
    Value.beqPairs ps qs = true ↔ ps = qs
  | [], [] => by simp [Value.beqPairs]
  | [], _ :: _ => by simp [Value.beqPairs]
  | _ :: _, [] => by simp [Value.beqPairs]
  | (k, v) :: ps, (l, w) :: qs => by
    simp only [Value.beqPairs, Bool.and_eq_true, Value.beq_iff k l, Value.beq_iff v w,
      Value.beqPairs_iff ps qs]
    simp
end

instance : BEq Value := ⟨Value.beq⟩

instance : DecidableEq Value :=
  fun a b => decidable_of_iff (Value.beq a b = true) (Value.beq_iff a b)

instance : LawfulBEq Value where
  eq_of_beq h := (Value.beq_iff _ _).mp h
  rfl := (Value.beq_iff _ _).mpr rfl

/-- The character of a decimal digit. -/
def digitChar (n : Nat) : Char :=
  Char.ofNat (48 + n)

/-- Accumulator worker for `natChars`; the fuel argument only bounds the
recursion depth (any fuel above the value suffices, see `natCharsAux_append`). -/
def natCharsAux : Nat → Nat → List Char → List Char
  | 0, _, acc => acc
  | fuel + 1, n, acc =>
    if n < 10 then digitChar n :: acc
    else natCharsAux fuel (n / 10) (digitChar (n % 10) :: acc)

/-- Decimal digits of a natural number, most significant first
(the digits `repr` prints for a nonnegative int). -/
def natChars (n : Nat) : List Char :=
  natCharsAux (n + 1) n []

/-- Characters of `repr` of a Python int. -/
def intChars : Int → List Char
  | Int.ofNat n => natChars n
  | Int.negSucc n => '-' :: natChars (n + 1)

/-- Significand of a finite float: the digits of `lead` followed by the
final nonzero digit `last + 1`. -/
def PyFloat.sig (lead : Nat) (last : Fin 9) : Nat :=
  lead * 10 + last.val + 1

/-- Exponent suffix of a scientific-notation `repr`: `e`, an explicit sign,
and at least two exponent digits. -/
def expSuffix (d : Int) : List Char :=
  'e' :: (if d < 0 then '-' else '+') ::
    (if (natChars d.natAbs).length < 2 then '0' :: natChars d.natAbs else natChars d.natAbs)

/-- Rendering of the nonzero significand digits `ds` times ten to `e`, the
way `repr` prints a finite float: fixed notation when the decimal exponent
of the value lies in `[-4, 15]` (an integral value gets a trailing `.0`),
scientific notation `d[.ddd]e±XX` otherwise. -/
def floatBody (ds : List Char) (e : Int) : List Char :=
  if -4 ≤ (ds.length : Int) - 1 + e ∧ (ds.length : Int) - 1 + e ≤ 15 then
    if 0 ≤ e then ds ++ List.replicate e.toNat '0' ++ ['.', '0']
    else if (-e).toNat < ds.length then
      ds.take (ds.length - (-e).toNat) ++ '.' :: ds.drop (ds.length - (-e).toNat)
    else '0' :: '.' :: (List.replicate ((-e).toNat - ds.length) '0' ++ ds)
  else
    (match ds with
     | [] => []
     | d :: rest => d :: (if rest.isEmpty then [] else '.' :: rest)) ++
      expSuffix ((ds.length : Int) - 1 + e)

/-- Characters of `repr` of a Python float. -/
def floatChars : PyFloat → List Char
  | .zero neg => if neg then ['-', '0', '.', '0'] else ['0', '.', '0']
  | .finite neg lead last e =>
    if neg then '-' :: floatBody (natChars (PyFloat.sig lead last)) e
    else floatBody (natChars (PyFloat.sig lead last)) e

/-- Lowercase hexadecimal digit, as printed by `repr` in `\xHH` escapes. -/
def hexDigitChar (n : Nat) : Char :=
  if n < 10 then Char.ofNat (48 + n) else Char.ofNat (87 + n)

/-- A character `repr` prints raw inside a string literal (modulo quotes and
backslash): printable, modelled exactly on ASCII. -/
def pyPrintable (c : Char) : Bool :=
  32 ≤ c.toNat && c.toNat ≠ 127

/-- How `repr` renders one character of a string quoted with `q`:
backslash and the quote are backslash-escaped, newline / carriage return /
tab use their two-character escapes, other non-printable ASCII characters
use `\xHH`, everything else is raw. -/
def escChar (q : Char) (c : Char) : List Char :=
  if c = '\\' then ['\\', '\\']
  else if c = q then ['\\', q]
  else if c = '\n' then ['\\', 'n']
  else if c = '\r' then ['\\', 'r']
  else if c = '\t' then ['\\', 't']
  else if pyPrintable c then [c]
  else ['\\', 'x', hexDigitChar (c.toNat / 16), hexDigitChar (c.toNat % 16)]

/-- Rendering by `repr` of the body of a string literal. -/
def escBody (q : Char) : List Char → List Char
  | [] => []
  | c :: cs => escChar q c ++ escBody q cs

/-- Quote choice of `repr`: single quotes, unless the string contains a single
quote and no double quote. -/
def quoteChoice (s : List Char) : Char :=
  if s.contains '\x27' && !s.contains '"' then '"' else '\x27'

/-- Characters of `repr` of a Python str. -/
def strChars (s : List Char) : List Char :=
  let q := quoteChoice s
  q :: escBody q s ++ [q]

mutual
/-- Characters of `repr` of a value: the textual literal form produced by
`MyPyon.encode`. -/
def encChars : Value → List Char
  | .str s => strChars s.data
  | .int n => intChars n
  | .float f => floatChars f
  | .bool b => if b then ['T', 'r', 'u', 'e'] else ['F', 'a', 'l', 's', 'e']
  | .pyNone => ['N', 'o', 'n', 'e']
  | .list vs => '[' :: encElems vs ++ [']']
  | .tuple [] => ['(', ')']
  | .tuple [v] => '(' :: (encChars v ++ [',', ')'])
  | .tuple (v :: w :: vs) => '(' :: (encElems (v :: w :: vs) ++ [')'])
  | .set [] => ['s', 'e', 't', '(', ')']
  | .set (v :: vs) => '\x7b' :: (encElems (v :: vs) ++ ['\x7d'])
  | .dict ps => '\x7b' :: encPairs ps ++ ['\x7d']

/-- Comma-space separated element list, as `repr` prints container elements. -/
def encElems : List Value → List Char
  | [] => []
  | [v] => encChars v
  | v :: w :: vs => encChars v ++ ',' :: ' ' :: encElems (w :: vs)

/-- Comma-space separated `key: value` list, as `repr` prints dict items. -/
def encPairs : List (Value × Value) → List Char
  | [] => []
  | [(k, v)] => encChars k ++ ':' :: ' ' :: encChars v
  | (k, v) :: p :: ps => encChars k ++ ':' :: ' ' :: encChars v ++ ',' :: ' ' :: encPairs (p :: ps)
end

/-- The codec method `MyPyon.encode(obj)`, i.e. `repr(obj)`, on the Value domain. -/
def MyPyon.encode (obj : Value) : String :=
  String.mk (encChars obj)

/-- Whitespace inside a literal expression. -/
def isWsChar (c : Char) : Bool :=
  c = ' ' || c = '\n' || c = '\t' || c = '\r'

/-- Drop leading whitespace. -/
def skipWs : List Char → List Char
  | [] => []
  | c :: cs => if isWsChar c then skipWs cs else c :: cs

/-- Value of a hexadecimal digit. -/
def hexVal (c : Char) : Option Nat :=
  if 48 ≤ c.toNat ∧ c.toNat ≤ 57 then some (c.toNat - 48)
  else if 97 ≤ c.toNat ∧ c.toNat ≤ 102 then some (c.toNat - 87)
  else if 65 ≤ c.toNat ∧ c.toNat ≤ 70 then some (c.toNat - 55)
  else none

/-- Body of a string literal quoted by `q`, after the opening quote: returns
the characters up to the closing quote and the input after it.  Recognises
the escape sequences `repr` emits (escaped backslash, escaped quotes, `\n`, `\r`, `\t`,
`\xHH`); other escapes are treated as a parse failure (real `eval` accepts
more escape forms, which `repr` never produces and no claim depends on). -/
def parseStrBody (q : Char) : List Char → Option (List Char × List Char)
  | [] => none
  | c :: cs =>
    if c = q then some ([], cs)
    else if c = '\\' then
      match cs with
      | [] => none
      | e :: cs1 =>
        if e = '\\' then (parseStrBody q cs1).map (fun p => ('\\' :: p.1, p.2))
        else if e = '\x27' then (parseStrBody q cs1).map (fun p => ('\x27' :: p.1, p.2))
        else if e = '"' then (parseStrBody q cs1).map (fun p => ('"' :: p.1, p.2))
        else if e = 'n' then (parseStrBody q cs1).map (fun p => ('\n' :: p.1, p.2))
        else if e = 'r' then (parseStrBody q cs1).map (fun p => ('\r' :: p.1, p.2))
        else if e = 't' then (parseStrBody q cs1).map (fun p => ('\t' :: p.1, p.2))
        else if e = 'x' then
          match cs1 with
          | h1 :: h2 :: cs2 =>
            match hexVal h1, hexVal h2 with
            | some a, some b =>
              (parseStrBody q cs2).map (fun p => (Char.ofNat (16 * a + b) :: p.1, p.2))
            | _, _ => none
          | _ => none
        else none
    else (parseStrBody q cs).map (fun p => (c :: p.1, p.2))

/-- Consume a maximal run of decimal digits, folding them onto `acc`. -/
def parseDigits (acc : Nat) : List Char → Nat × List Char
  | [] => (acc, [])
  | c :: cs =>
    if c.isDigit then parseDigits (acc * 10 + (c.toNat - 48)) cs else (acc, c :: cs)

/-- Consume a maximal run of digits after a decimal point, folding the value
onto `acc` and counting the digits consumed (leading fraction zeros carry no
value but shift the exponent, so the count matters). -/
def parseFrac : List Char → Nat → Nat → Nat × Nat × List Char
  | [], acc, cnt => (acc, cnt, [])
  | c :: cs, acc, cnt =>
    if c.isDigit then parseFrac cs (acc * 10 + (c.toNat - 48)) (cnt + 1)
    else (acc, cnt, c :: cs)

/-- A nonempty digit run, as the digits of an exponent after its sign. -/
def parseExpDigits : List Char → Option (Nat × List Char)
  | [] => none
  | d :: ds =>
    if d.isDigit then some (parseDigits (d.toNat - 48) ds) else none

/-- The exponent of a float literal, after its `e` or `E`: an optional sign
and a nonempty digit run. -/
def parseExpTail : List Char → Option (Int × List Char)
  | [] => none
  | c :: cs =>
    if c = '-' then (parseExpDigits cs).map (fun p => (-(p.1 : Int), p.2))
    else if c = '+' then (parseExpDigits cs).map (fun p => ((p.1 : Int), p.2))
    else if c.isDigit then
      let p := parseDigits (c.toNat - 48) cs
      some ((p.1 : Int), p.2)
    else none

/-- Strip factors of ten from a significand, shifting them into the exponent
(the fuel argument only bounds the recursion depth; any fuel at least the
number of trailing zeros suffices, see `stripZeros_shift`). -/
def stripZeros : Nat → Nat → Int → Nat × Int
  | 0, m, e => (m, e)
  | fuel + 1, m, e =>
    if m % 10 = 0 then stripZeros fuel (m / 10) (e + 1) else (m, e)

/-- The float a numeric literal evaluates to: significand `m` (all the digits
read, fraction included) times ten to `e`, put into the canonical
shortest-decimal form `PyFloat` carries. -/
def mkFloat (neg : Bool) (m : Nat) (e : Int) : Value :=
  if m = 0 then Value.float (.zero neg)
  else
    let p := stripZeros m m e
    Value.float (.finite neg (p.1 / 10) ⟨(p.1 % 10 - 1) % 9, Nat.mod_lt _ (by decide)⟩ p.2)

/-- The integer a sign and a digit-run value evaluate to. -/
def applySign (neg : Bool) (n : Nat) : Int :=
  if neg then -(n : Int) else (n : Int)

/-- Continue a numeric literal after its integer digits: a `.` fraction, an
`e`/`E` exponent, or both make it a float literal (the forms `repr` prints
and their non-canonical variants); otherwise the digits are an int literal.
An `e`/`E` not followed by an exponent is left unconsumed, so the enclosing
grammar fails on it, as `eval` rejects such a literal. -/
def parseNumTail (neg : Bool) (n : Nat) (rest : List Char) : Value × List Char :=
  match rest with
  | [] => (Value.int (applySign neg n), [])
  | c :: r1 =>
    if c = '.' then
      let f := parseFrac r1 0 0
      match f.2.2 with
      | [] => (mkFloat neg (n * 10 ^ f.2.1 + f.1) (-(f.2.1 : Int)), [])
      | c2 :: r3 =>
        if c2 = 'e' ∨ c2 = 'E' then
          match parseExpTail r3 with
          | some p => (mkFloat neg (n * 10 ^ f.2.1 + f.1) (p.1 - (f.2.1 : Int)), p.2)
          | none => (mkFloat neg (n * 10 ^ f.2.1 + f.1) (-(f.2.1 : Int)), c2 :: r3)
        else (mkFloat neg (n * 10 ^ f.2.1 + f.1) (-(f.2.1 : Int)), c2 :: r3)
    else if c = 'e' ∨ c = 'E' then
      match parseExpTail r1 with
      | some p => (mkFloat neg n p.1, p.2)
      | none => (Value.int (applySign neg n), c :: r1)
    else (Value.int (applySign neg n), c :: r1)

/-- Match an exact sequence of characters, returning the rest of the input. -/
def expectChars : List Char → List Char → Option (List Char)
  | [], s => some s
  | _ :: _, [] => none
  | p :: ps, c :: cs => if c = p then expectChars ps cs else none

mutual
/-- Parse one literal expression of the Value grammar (the fragment of Python
expressions that `eval` evaluates purely on the value domain of the protocol):
strings in either quote style, decimal integer and float literals (digits
with an optional `.` fraction and an optional `e`/`E` exponent — the forms
`repr` prints and their non-canonical variants; other numeric forms such as
leading-dot floats, digit underscores or hex integers are outside the
grammar, and `repr` never prints them), `True`/`False`/`None`, `set()`,
lists, tuples (including the `(v,)` form and plain parenthesised values),
sets and dicts, with optional whitespace between tokens and trailing commas
in containers.  `fuel` bounds recursion depth; every claim instantiates it
large enough (see `evalLiteral`). -/
def parseVal : Nat → List Char → Option (Value × List Char)
  | 0, _ => none
  | fuel + 1, s =>
    match skipWs s with
    | [] => none
    | c :: cs =>
      if c = '\x27' then (parseStrBody '\x27' cs).map (fun p => (Value.str (String.mk p.1), p.2))
      else if c = '"' then (parseStrBody '"' cs).map (fun p => (Value.str (String.mk p.1), p.2))
      else if c = '[' then parseListBody fuel cs
      else if c = '(' then parseParenBody fuel cs
      else if c = '\x7b' then parseBraceBody fuel cs
      else if c = 'T' then (expectChars ['r', 'u', 'e'] cs).map (fun r => (Value.bool true, r))
      else if c = 'F' then (expectChars ['a', 'l', 's', 'e'] cs).map (fun r => (Value.bool false, r))
      else if c = 'N' then (expectChars ['o', 'n', 'e'] cs).map (fun r => (Value.pyNone, r))
      else if c = 's' then (expectChars ['e', 't', '(', ')'] cs).map (fun r => (Value.set [], r))
      else if c = '-' then
        match cs with
        | [] => none
        | d :: ds =>
          if d.isDigit then
            let p := parseDigits (d.toNat - 48) ds
            some (parseNumTail true p.1 p.2)
          else none
      else if c.isDigit then
        let p := parseDigits (c.toNat - 48) cs
        some (parseNumTail false p.1 p.2)
      else none

/-- After `[`: an element list closed by `]`. -/
def parseListBody : Nat → List Char → Option (Value × List Char)
  | 0, _ => none
  | fuel + 1, s =>
    match skipWs s with
    | [] => none
    | c :: cs =>
      if c = ']' then some (Value.list [], cs)
      else
        match parseVal fuel s with
        | none => none
        | some (v, r1) =>
          match parseElemsRest fuel ']' r1 with
          | none => none
          | some (vs, r2) => some (Value.list (v :: vs), r2)

/-- After `(`: the empty tuple, a parenthesised value, or a tuple display. -/
def parseParenBody : Nat → List Char → Option (Value × List Char)
  | 0, _ => none
  | fuel + 1, s =>
    match skipWs s with
    | [] => none
    | c :: cs =>
      if c = ')' then some (Value.tuple [], cs)
      else
        match parseVal fuel s with
        | none => none
        | some (v, r1) =>
          match skipWs r1 with
          | [] => none
          | c2 :: r2 =>
            if c2 = ')' then some (v, r2)
            else if c2 = ',' then
              match parseElemsRest fuel ')' r1 with
              | none => none
              | some (vs, r3) => some (Value.tuple (v :: vs), r3)
            else none

/-- After `{`: the empty dict, a dict display, or a set display. -/
def parseBraceBody : Nat → List Char → Option (Value × List Char)
  | 0, _ => none
  | fuel + 1, s =>
    match skipWs s with
    | [] => none
    | c :: cs =>
      if c = '\x7d' then some (Value.dict [], cs)
      else
        match parseVal fuel s with
        | none => none
        | some (k, r1) =>
          match skipWs r1 with
          | [] => none
          | c2 :: r2 =>
            if c2 = ':' then
              match parseVal fuel r2 with
              | none => none
              | some (w, r3) =>
                match parsePairsRest fuel r3 with
                | none => none
                | some (ps, r4) => some (Value.dict ((k, w) :: ps), r4)
            else
              match parseElemsRest fuel '\x7d' r1 with
              | none => none
              | some (vs, r3) => some (Value.set (k :: vs), r3)

/-- After a complete element: zero or more further comma-prefixed elements,
an optional trailing comma, then the closing delimiter. -/
def parseElemsRest : Nat → Char → List Char → Option (List Value × List Char)
  | 0, _, _ => none
  | fuel + 1, close, s =>
    match skipWs s with
    | [] => none
    | c :: cs =>
      if c = close then some ([], cs)
      else if c = ',' then
        match skipWs cs with
        | [] => none
        | d :: ds =>
          if d = close then some ([], ds)
          else
            match parseVal fuel cs with
            | none => none
            | some (v, r1) =>
              match parseElemsRest fuel close r1 with
              | none => none
              | some (vs, r2) => some (v :: vs, r2)
      else none

/-- After a complete `key: value` pair: further pairs, an optional trailing
comma, then `}`. -/
def parsePairsRest : Nat → List Char → Option (List (Value × Value) × List Char)
  | 0, _ => none
  | fuel + 1, s =>
    match skipWs s with
    | [] => none
    | c :: cs =>
      if c = '\x7d' then some ([], cs)
      else if c = ',' then
        match skipWs cs with
        | [] => none
        | d :: ds =>
          if d = '\x7d' then some ([], ds)
          else
            match parseVal fuel cs with
            | none => none
            | some (k, r1) =>
              match skipWs r1 with
              | [] => none
              | c2 :: r2 =>
                if c2 = ':' then
                  match parseVal fuel r2 with
                  | none => none
                  | some (w, r3) =>
                    match parsePairsRest fuel r3 with
                    | none => none
                    | some (ps, r4) => some ((k, w) :: ps, r4)
                else none
      else none
end

/-- Python `eval(line)` on a line of the literal Value grammar: parse one literal
expression, allowing surrounding whitespace (`eval` ignores a trailing
newline); anything else — including non-literal expressions, which the
model does not evaluate — is a failure. -/
def evalLiteral (s : List Char) : Option Value :=
  match parseVal (2 * s.length + 4) s with
  | some (v, rest) => if skipWs rest = [] then some v else none
  | none => none

/-- The codec method `MyPyon.decode(line)` as invoked by the handler (on a `str`, the decoded
received line, trailing newline included): the initial `line.decode()` raises
`AttributeError` on a `str` and is caught, leaving the line itself as the
default result; then, if the line starts with `{` or `[`, `eval` replaces it
on success, any evaluation failure being swallowed. -/
def MyPyon.decode (line : String) : Value :=
  match line.data with
  | [] => Value.str line
  | c :: _ =>
    if c = '\x7b' ∨ c = '[' then
      match evalLiteral line.data with
      | some v => v
      | none => Value.str line
    else Value.str line

/-- A Python object a method may return: a value of the Value domain, or an
object outside it whose `repr` raises an exception with the given message
(the "return value not encodable by the Codec" case). -/
inductive PyObj where
  | val : Value → PyObj
  | badRepr : String → PyObj

/-- Applying `repr` to a returned object: total on the Value domain, raising (as an
error message) on an object whose `__repr__` raises. -/
def MyPyon.encodeObj : PyObj → Except String String
  | .val v => .ok (MyPyon.encode v)
  | .badRepr msg => .error msg

/-- A callable member of a target: the result of `inspect.getfullargspec`
(carried as data, since introspection has no shallow embedding), the
cleaned docstring `inspect.getdoc` returns, and the calling behaviour —
positional and keyword arguments to either a returned object or the
message of a raised exception. -/
structure Method where
  argspec : Value
  doc : Option String
  call : List Value → List (String × Value) → Except String PyObj

/-- A target object: its class name (appearing in the AttributeError
message), its docstring, and its `inspect.ismethod` members keyed by name. -/
structure Target where
  className : String
  doc : Option String
  members : List (String × Method)

/-- A registry entry: a target instance, or a zero-argument factory
(the `callable(target)` case in the handler). -/
inductive TargetEntry where
  | inst : Target → TargetEntry
  | factory : (Unit → Target) → TargetEntry

/-- The source line `if callable(target): target = target()`. -/
def TargetEntry.resolve : TargetEntry → Target
  | .inst t => t
  | .factory f => f ()

/-- The server-owned state every connection handler reads:
`self.server.targets` and `self.server.description`. -/
structure ServerCfg where
  targets : List (String × TargetEntry)
  description : String

/-- Code-point lexicographic comparison of character lists (Python string
comparison). -/
def charListLe : List Char → List Char → Bool
  | [], _ => true
  | _ :: _, [] => false
  | a :: as, b :: bs =>
    if a.toNat < b.toNat then true
    else if a.toNat = b.toNat then charListLe as bs
    else false

/-- Python `<=` on strings: code-point lexicographic. -/
def pyStrLe (s t : String) : Bool :=
  charListLe s.data t.data

/-- Insertion step for sorting an association list by key. -/
def insertByName {α : Type} (x : String × α) : List (String × α) → List (String × α)
  | [] => [x]
  | y :: ys => if pyStrLe x.1 y.1 then x :: y :: ys else y :: insertByName x ys

/-- Sort an association list by key (code-point lexicographic, as Python
compares strings). -/
def sortByName {α : Type} (l : List (String × α)) : List (String × α) :=
  l.foldr insertByName []

/-- Insertion step for `sortStrings`. -/
def insertString (x : String) : List String → List String
  | [] => [x]
  | y :: ys => if pyStrLe x y then x :: y :: ys else y :: insertString x ys

/-- Python `sorted` on a list of strings. -/
def sortStrings (l : List String) : List String :=
  l.foldr insertString []

/-- The call `inspect.getmembers(target, inspect.ismethod)`: the method
members of the target, sorted by name as `getmembers` sorts its result. -/
def getmembers (t : Target) : List (String × Method) :=
  sortByName t.members

/-- Python truthiness on the Value domain. -/
def pyTruthy : Value → Bool
  | .str s => !s.isEmpty
  | .int n => n ≠ 0
  | .float (.zero _) => false
  | .float (.finite _ _ _ _) => true
  | .bool b => b
  | .pyNone => false
  | .list vs => !vs.isEmpty
  | .tuple vs => !vs.isEmpty
  | .set vs => !vs.isEmpty
  | .dict ps => !ps.isEmpty

/-- Python `str()` on the Value domain (what `"...".format(...)` uses):
the string itself for a str, `repr` otherwise. -/
def pyStr : Value → String
  | .str s => s
  | v => MyPyon.encode v

/-- An optional docstring as a Python value (`None` when absent). -/
def optStrValue : Option String → Value
  | some s => .str s
  | none => .pyNone

/-- The source method `NanoNDSPHandler._document_function`: the tuple of the
argument specification of the method and its docstring; if the `annotations`
dict of the argspec has any truthy key, the whole annotations entry is
replaced by its `str()` form (PYON cannot serialize type annotations). -/
def NanoNDSPHandler.documentFunction (m : Method) : Value :=
  let argspec :=
    match m.argspec with
    | .dict ps =>
      match ps.lookup (Value.str "annotations") with
      | some (Value.dict ann) =>
        if ann.any (fun kv => pyTruthy kv.1) then
          Value.dict (ps.map (fun kv =>
            if kv.1 = Value.str "annotations" then (kv.1, Value.str (pyStr (Value.dict ann)))
            else kv))
        else Value.dict ps
      | _ => Value.dict ps
    | a => a
  Value.tuple [argspec, optStrValue m.doc]

/-- Python subscripting `obj[key]` with a string key, as the dispatcher uses
it on the decoded request: dict lookup (the `str` of a KeyError is the `repr` of
the missing key); the `TypeError` texts for non-subscriptable values are
modelled representatively (their exact wording varies across Python
versions and no claim depends on it). -/
def lookupKey (obj : Value) (key : String) : Except String Value :=
  match obj with
  | .dict ps =>
    match ps.lookup (Value.str key) with
    | some v => .ok v
    | none => .error ("\x27" ++ key ++ "\x27")
  | .str _ => .error "string indices must be integers"
  | _ => .error "object is not subscriptable"

/-- Iterable unpacking `*args`: lists, tuples and sets unpack to their
elements, strings to their characters, dicts to their keys; anything else
raises `TypeError`. -/
def argsOfValue : Value → Except String (List Value)
  | .list vs => .ok vs
  | .tuple vs => .ok vs
  | .set vs => .ok vs
  | .str s => .ok (s.data.map (fun c => Value.str (String.mk [c])))
  | .dict ps => .ok (ps.map Prod.fst)
  | _ => .error "argument after * must be an iterable"

/-- Mapping unpacking `**kwargs`: a dict whose keys must all be strings;
anything else raises `TypeError`. -/
def kwargsOfValue : Value → Except String (List (String × Value))
  | .dict ps =>
    ps.foldr (fun kv acc =>
      match acc with
      | .error e => .error e
      | .ok rest =>
        match kv.1 with
        | .str k => .ok ((k, kv.2) :: rest)
        | _ => .error "keywords must be strings") (.ok [])
  | _ => .error "argument after ** must be a mapping"

/-- The check `name.startswith("_")`: whether the first character of the name is an
underscore. -/
def startsWithUnderscore (s : String) : Bool :=
  match s.data with
  | [] => false
  | c :: _ => c = '_'

/-- The entries of the `methods` dict built by the `get_rpc_method_list`
action: the members in `getmembers` order, names starting with an
underscore skipped, each remaining name mapped to its descriptor. -/
def NanoNDSPHandler.rpcMethodsEntries (t : Target) : List (Value × Value) :=
  ((getmembers t).filter (fun p => !startsWithUnderscore p.1)).map
    (fun p => (Value.str p.1, NanoNDSPHandler.documentFunction p.2))

/-- The source method `NanoNDSPHandler._process_action`: perform the requested
action on the target.  Failures — missing request keys, unknown attribute, an
exception from the invoked method, unknown action — are raised as error
messages (the `except ... raise` in the source re-raises them unchanged). -/
def NanoNDSPHandler.processAction (target : Target) (obj : Value) : Except String PyObj :=
  match lookupKey obj "action" with
  | .error e => .error e
  | .ok act =>
    if act = Value.str "get_rpc_method_list" then
      .ok (.val (Value.dict [
        (Value.str "docstring", optStrValue target.doc),
        (Value.str "methods", Value.dict (NanoNDSPHandler.rpcMethodsEntries target))]))
    else if act = Value.str "call" then
      match lookupKey obj "name" with
      | .error e => .error e
      | .ok (Value.str name) =>
        match target.members.lookup name with
        | none =>
          .error ("\x27" ++ target.className ++ "\x27 object has no attribute \x27"
            ++ name ++ "\x27")
        | some m =>
          match lookupKey obj "args" with
          | .error e => .error e
          | .ok argsV =>
            match argsOfValue argsV with
            | .error e => .error e
            | .ok args =>
              match lookupKey obj "kwargs" with
              | .error e => .error e
              | .ok kwV =>
                match kwargsOfValue kwV with
                | .error e => .error e
                | .ok kws => m.call args kws
      | .ok _ => .error "attribute name must be string"
    else
      .error ("Unknown action: " ++ pyStr act)

/-- The `Ok` response envelope for a result value. -/
def okEnvelope (v : Value) : Value :=
  Value.dict [(Value.str "status", Value.str "ok"), (Value.str "ret", v)]

/-- The `Failed` response envelope for an error message. -/
def failedEnvelope (e : String) : Value :=
  Value.dict [(Value.str "status", Value.str "failed"), (Value.str "exception", Value.str e)]

/-- Encoding the `Ok` envelope around a returned object: `repr` of the
envelope dict recurses into the object, so it raises exactly when the
`repr` of the object itself raises. -/
def encodeOkEnvelope (r : PyObj) : Except String String :=
  match r with
  | .val v => .ok (MyPyon.encode (okEnvelope v))
  | .badRepr msg => .error msg

/-- The source method `NanoNDSPHandler._process_and_pyonize`: the `try` block spans both the
dispatch and the encoding of the Ok envelope, so an exception from either is
caught and turned into an encoded Failed envelope carrying `str(err)`. -/
def NanoNDSPHandler.processAndPyonize (target : Target) (obj : Value) : String :=
  match
    (match NanoNDSPHandler.processAction target obj with
     | .ok r => encodeOkEnvelope r
     | .error e => .error e) with
  | .ok s => s
  | .error err => MyPyon.encode (failedEnvelope err)

/-- The SERVING loop of `NanoNDSPHandler.handle`: for each received line
(`readline` output; an empty read is end-of-stream and breaks the loop)
decode, dispatch, and write back exactly one envelope line. -/
def NanoNDSPHandler.serveLoop (target : Target) : List String → List String
  | [] => []
  | line :: rest =>
    if line = "" then []
    else
      (NanoNDSPHandler.processAndPyonize target (MyPyon.decode line) ++ "\n")
        :: NanoNDSPHandler.serveLoop target rest

/-- The catalog line sent right after a successful magic handshake:
the encoded `{"targets": sorted registry names, "description": description}`
dict, newline-terminated. -/
def NanoNDSPHandler.catalogLine (cfg : ServerCfg) : String :=
  MyPyon.encode (Value.dict [
    (Value.str "targets", Value.list ((sortStrings (cfg.targets.map Prod.fst)).map Value.str)),
    (Value.str "description", Value.str cfg.description)]) ++ "\n"

/-- The elements of the `valid_methods` set sent after target selection:
every `inspect.ismethod` member name, with no underscore filtering. -/
def NanoNDSPHandler.methodsSetElems (t : Target) : List Value :=
  (getmembers t).map (fun p => Value.str p.1)

/-- The capability line sent after target selection: the encoded set of all
callable member names, newline-terminated. -/
def NanoNDSPHandler.methodsLine (t : Target) : String :=
  MyPyon.encode (Value.set (NanoNDSPHandler.methodsSetElems t)) ++ "\n"

/-- The source method `NanoNDSPHandler.handle` over the abstract line streams: the input is
the list of lines `readline` yields (trailing newline included; the end of
the list — or an empty line — is end-of-stream), the output the list of
lines written.  A first line other than the exact magic closes with nothing
written; an unknown target name closes right after the catalog line; a
callable registry entry is invoked to build the per-connection instance;
`line.decode()[:-1]` drops the final character of the target line. -/
def NanoNDSPHandler.handle (cfg : ServerCfg) : List String → List String
  | [] => []
  | line1 :: rest1 =>
    if line1 ≠ "ARTIQ pc_rpc\n" then []
    else
      NanoNDSPHandler.catalogLine cfg ::
        (match rest1 with
        | [] => []
        | line2 :: rest2 =>
          if line2 = "" then []
          else
            match cfg.targets.lookup (line2.dropRight 1) with
            | none => []
            | some entry =>
              let target := entry.resolve
              NanoNDSPHandler.methodsLine target
                :: NanoNDSPHandler.serveLoop target rest2)

/-- The argument specification `inspect.getfullargspec(obj.add)._asdict()`
yields for a bound method `add(self, a, b)` (bound methods keep `self` in
the `getfullargspec` result). -/
def addArgspec : Value :=
  Value.dict [
    (Value.str "args", Value.list [Value.str "self", Value.str "a", Value.str "b"]),
    (Value.str "varargs", Value.pyNone),
    (Value.str "varkw", Value.pyNone),
    (Value.str "defaults", Value.pyNone),
    (Value.str "kwonlyargs", Value.list []),
    (Value.str "kwonlydefaults", Value.pyNone),
    (Value.str "annotations", Value.dict [])]

/-- The method `def add(self, a, b): return a + b` on integer arguments; any other
argument shape raises a `TypeError` (wrong arity, or `+` on unsupported
operands). -/
def addMethod : Method where
  argspec := addArgspec
  doc := some "Add two numbers and return result"
  call := fun args kwargs =>
    match args, kwargs with
    | [Value.int a, Value.int b], [] => .ok (.val (Value.int (a + b)))
    | _, _ => .error "unsupported operand or argument count for add()"

/-- The scenario target of claim C6: an object whose only callable member is
`add(a, b) = a + b`. -/
def adderTarget : Target where
  className := "Adder"
  doc := none
  members := [("add", addMethod)]

/-- The scenario registry of claim C6. -/
def adderCfg : ServerCfg where
  targets := [("adder", TargetEntry.inst adderTarget)]
  description := "test"

/-- An argspec for a method `self`-only method. -/
def selfOnlyArgspec : Value :=
  Value.dict [
    (Value.str "args", Value.list [Value.str "self"]),
    (Value.str "varargs", Value.pyNone),
    (Value.str "varkw", Value.pyNone),
    (Value.str "defaults", Value.pyNone),
    (Value.str "kwonlyargs", Value.list []),
    (Value.str "kwonlydefaults", Value.pyNone),
    (Value.str "annotations", Value.dict [])]

/-- An underscore-prefixed callable member. -/
def hiddenMethod : Method where
  argspec := selfOnlyArgspec
  doc := none
  call := fun _ _ => .ok (.val (Value.str "hidden result"))

/-- A target with an underscore-prefixed member beside a public one, to
separate the two method enumerations (claims C7, C10). -/
def secretTarget : Target where
  className := "Secret"
  doc := some "a target with a private method"
  members := [("_hidden", hiddenMethod), ("add", addMethod)]

/-- A method whose return value is an object outside the Value domain whose
`repr` raises `Exception("boom")` (the unencodable return value of claim C9). -/
def badMethod : Method where
  argspec := selfOnlyArgspec
  doc := none
  call := fun _ _ => .ok (.badRepr "boom")

/-- A target exposing `badMethod` as `bad`. -/
def badTarget : Target where
  className := "Bad"
  doc := none
  members := [("bad", badMethod)]

theorem natCharsAux_append : ∀ (n : Nat), ∀ (fuel : Nat) (acc : List Char), n < fuel →
    natCharsAux fuel n acc = natChars n ++ acc := by
  intro n
  induction n using Nat.strong_induction_on with
  | _ n ih =>
    intro fuel acc h
    match fuel with
    | 0 => omega
    | f + 1 =>
      by_cases h10 : n < 10
      · simp [natCharsAux, natChars, h10]
      · have hdiv : n / 10 < n := Nat.div_lt_self (by omega) (by decide)
        have h1 : natCharsAux f (n / 10) (digitChar (n % 10) :: acc)
            = natChars (n / 10) ++ digitChar (n % 10) :: acc := ih _ hdiv _ _ (by omega)
        have h2 : natCharsAux n (n / 10) [digitChar (n % 10)]
            = natChars (n / 10) ++ [digitChar (n % 10)] := ih _ hdiv _ _ (by omega)
        simp only [natCharsAux, if_neg h10, h1, natChars, h2]
        simp

/-- The recurrence `natChars` satisfies. -/
theorem natChars_eq (n : Nat) :
    natChars n = if n < 10 then [digitChar n] else natChars (n / 10) ++ [digitChar (n % 10)] := by
  by_cases h10 : n < 10
  · simp [natChars, natCharsAux, h10]
  · have hdiv : n / 10 < n := Nat.div_lt_self (by omega) (by decide)
    rw [if_neg h10]
    show natCharsAux (n + 1) n [] = _
    simp only [natCharsAux, if_neg h10]
    rw [natCharsAux_append _ _ _ (by omega)]

theorem digitChar_isDigit {n : Nat} (h : n < 10) : (digitChar n).isDigit = true := by
  interval_cases n <;> rfl

theorem digitChar_toNat {n : Nat} (h : n < 10) : (digitChar n).toNat = 48 + n := by
  interval_cases n <;> rfl

theorem natChars_digits : ∀ n : Nat, ∀ c ∈ natChars n, c.isDigit = true := by
  intro n
  induction n using Nat.strong_induction_on with
  | _ n ih =>
    intro c hc
    rw [natChars_eq] at hc
    by_cases h10 : n < 10
    · rw [if_pos h10] at hc
      simp at hc
      exact hc ▸ digitChar_isDigit h10
    · rw [if_neg h10] at hc
      rcases List.mem_append.mp hc with h1 | h1
      · exact ih _ (Nat.div_lt_self (by omega) (by decide)) c h1
      · simp at h1
        exact h1 ▸ digitChar_isDigit (by omega)

theorem natChars_cons : ∀ n : Nat, ∃ c cs, natChars n = c :: cs ∧ c.isDigit = true := by
  intro n
  induction n using Nat.strong_induction_on with
  | _ n ih =>
    rw [natChars_eq]
    by_cases h10 : n < 10
    · exact ⟨digitChar n, [], by rw [if_pos h10], digitChar_isDigit h10⟩
    · obtain ⟨c, cs, hc, hd⟩ := ih (n / 10) (Nat.div_lt_self (by omega) (by decide))
      exact ⟨c, cs ++ [digitChar (n % 10)], by rw [if_neg h10, hc]; rfl, hd⟩

/-- The number a run of digit characters denotes, continuing `acc`. -/
def digitsVal (acc : Nat) (ds : List Char) : Nat :=
  ds.foldl (fun a c => a * 10 + (c.toNat - 48)) acc

theorem digitsVal_cons (acc : Nat) (c : Char) (l : List Char) :
    digitsVal acc (c :: l) = digitsVal (acc * 10 + (c.toNat - 48)) l := rfl

theorem parseDigits_append : ∀ (ds : List Char) (acc : Nat) (rest : List Char),
    (∀ c ∈ ds, c.isDigit = true) →
    (∀ c cs, rest = c :: cs → c.isDigit = false) →
    parseDigits acc (ds ++ rest) = (digitsVal acc ds, rest) := by
  intro ds
  induction ds with
  | nil =>
    intro acc rest _ hrest
    match rest with
    | [] => rfl
    | c :: cs => simp [parseDigits, hrest c cs rfl, digitsVal]
  | cons d ds ih =>
    intro acc rest hds hrest
    have hd : d.isDigit = true := hds d (by simp)
    have hstep : parseDigits acc ((d :: ds) ++ rest)
        = parseDigits (acc * 10 + (d.toNat - 48)) (ds ++ rest) := by
      simp [parseDigits, hd]
    rw [hstep, ih _ _ (fun c hc => hds c (by simp [hc])) hrest, digitsVal_cons]

theorem digitsVal_natChars : ∀ n : Nat, digitsVal 0 (natChars n) = n := by
  intro n
  induction n using Nat.strong_induction_on with
  | _ n ih =>
    rw [natChars_eq]
    by_cases h10 : n < 10
    · rw [if_pos h10]
      simp [digitsVal, digitChar_toNat h10]
    · rw [if_neg h10]
      have hih : digitsVal 0 (natChars (n / 10)) = n / 10 :=
        ih _ (Nat.div_lt_self (by omega) (by decide))
      simp only [digitsVal, List.foldl_append] at hih ⊢
      rw [hih]
      simp only [List.foldl_cons, List.foldl_nil]
      rw [digitChar_toNat (by omega)]
      omega

theorem isDigit_ne {c d : Char} (h : c.isDigit = true) (hd : d.isDigit = false) : c ≠ d := by
  intro he
  subst he
  rw [hd] at h
  exact Bool.noConfusion h

theorem digitsVal_append (a : Nat) (xs ys : List Char) :
    digitsVal a (xs ++ ys) = digitsVal (digitsVal a xs) ys := by
  simp [digitsVal, List.foldl_append]

theorem digitsVal_shift : ∀ (xs : List Char) (a : Nat),
    digitsVal a xs = a * 10 ^ xs.length + digitsVal 0 xs
  | [], a => by simp [digitsVal]
  | c :: cs, a => by
    rw [digitsVal_cons, digitsVal_cons, digitsVal_shift cs (a * 10 + (c.toNat - 48)),
      digitsVal_shift cs (0 * 10 + (c.toNat - 48))]
    simp only [List.length_cons, Nat.zero_mul, Nat.zero_add, pow_succ]
    ring

theorem isDigit_toNat {c : Char} (h : c.isDigit = true) : 48 ≤ c.toNat ∧ c.toNat ≤ 57 := by
  simp [Char.isDigit, Char.le_def] at h
  exact h

theorem digitsVal_lt : ∀ xs : List Char, (∀ c ∈ xs, c.isDigit = true) →
    digitsVal 0 xs < 10 ^ xs.length
  | [], _ => by simp [digitsVal]
  | c :: cs, h => by
    have hc : c.toNat - 48 < 10 := by
      have hd := isDigit_toNat (h c (List.mem_cons_self c cs))
      omega
    have h2 := digitsVal_lt cs (fun x hx => h x (List.mem_cons_of_mem _ hx))
    rw [digitsVal_cons, digitsVal_shift cs, List.length_cons, pow_succ]
    simp only [Nat.zero_mul, Nat.zero_add]
    have h4 : (c.toNat - 48) * 10 ^ cs.length + 10 ^ cs.length ≤ 10 ^ cs.length * 10 := by
      calc (c.toNat - 48) * 10 ^ cs.length + 10 ^ cs.length
          = (c.toNat - 48 + 1) * 10 ^ cs.length := by ring
        _ ≤ 10 * 10 ^ cs.length := Nat.mul_le_mul_right _ (by omega)
        _ = 10 ^ cs.length * 10 := by ring
    omega

theorem digitsVal_zeros : ∀ (z a : Nat), digitsVal a (List.replicate z '0') = a * 10 ^ z
  | 0, a => by simp [digitsVal]
  | z + 1, a => by
    rw [List.replicate_succ, digitsVal_cons, digitsVal_zeros z]
    have h0 : ('0' : Char).toNat - 48 = 0 := rfl
    rw [h0, pow_succ]
    ring

theorem replicate_zero_digits (z : Nat) : ∀ c ∈ List.replicate z '0', c.isDigit = true := by
  intro c hc
  rw [List.eq_of_mem_replicate hc]
  decide

theorem digitsVal_split (ds : List Char) (t : Nat) (ht : t ≤ ds.length)
    (hall : ∀ c ∈ ds, c.isDigit = true) :
    digitsVal 0 (ds.take (ds.length - t)) = digitsVal 0 ds / 10 ^ t ∧
    digitsVal 0 (ds.drop (ds.length - t)) = digitsVal 0 ds % 10 ^ t := by
  have hlen : (ds.drop (ds.length - t)).length = t := by
    rw [List.length_drop]; omega
  have hval : digitsVal 0 ds
      = digitsVal 0 (ds.take (ds.length - t)) * 10 ^ t
        + digitsVal 0 (ds.drop (ds.length - t)) := by
    calc digitsVal 0 ds
        = digitsVal 0 (ds.take (ds.length - t) ++ ds.drop (ds.length - t)) := by
          rw [List.take_append_drop]
      _ = digitsVal (digitsVal 0 (ds.take (ds.length - t))) (ds.drop (ds.length - t)) :=
          digitsVal_append _ _ _
      _ = digitsVal 0 (ds.take (ds.length - t)) * 10 ^ t
            + digitsVal 0 (ds.drop (ds.length - t)) := by
          rw [digitsVal_shift (ds.drop (ds.length - t)), hlen]
  have hlt : digitsVal 0 (ds.drop (ds.length - t)) < 10 ^ t := by
    have h := digitsVal_lt (ds.drop (ds.length - t))
      (fun c hc => hall c (List.drop_subset _ _ hc))
    rwa [hlen] at h
  have hpos : 0 < 10 ^ t := pow_pos (by norm_num) t
  constructor
  · rw [hval, Nat.mul_comm, Nat.mul_add_div hpos, Nat.div_eq_of_lt hlt]
    omega
  · rw [hval, Nat.mul_comm, Nat.mul_add_mod, Nat.mod_eq_of_lt hlt]

theorem parseFrac_append : ∀ (ds : List Char) (acc cnt : Nat) (rest : List Char),
    (∀ c ∈ ds, c.isDigit = true) →
    (∀ c cs, rest = c :: cs → c.isDigit = false) →
    parseFrac (ds ++ rest) acc cnt = (digitsVal acc ds, cnt + ds.length, rest) := by
  intro ds
  induction ds with
  | nil =>
    intro acc cnt rest _ hrest
    match rest with
    | [] => simp [parseFrac, digitsVal]
    | c :: cs => simp [parseFrac, hrest c cs rfl, digitsVal]
  | cons d ds ih =>
    intro acc cnt rest hds hrest
    have hd : d.isDigit = true := hds d (by simp)
    have hstep : parseFrac ((d :: ds) ++ rest) acc cnt
        = parseFrac (ds ++ rest) (acc * 10 + (d.toNat - 48)) (cnt + 1) := by
      simp [parseFrac, hd]
    rw [hstep, ih _ _ _ (fun c hc => hds c (by simp [hc])) hrest, digitsVal_cons]
    simp only [List.length_cons, Prod.mk.injEq, true_and, and_true]
    omega

theorem parseExpTail_digits (d : Char) (ds rest : List Char) (hd : d.isDigit = true)
    (hall : ∀ c ∈ ds, c.isDigit = true)
    (hrest : ∀ x xs, rest = x :: xs → x.isDigit = false) :
    parseExpTail ('-' :: d :: ds ++ rest) = some (-(digitsVal (d.toNat - 48) ds : Int), rest)
    ∧ parseExpTail ('+' :: d :: ds ++ rest) = some ((digitsVal (d.toNat - 48) ds : Int), rest)
    ∧ parseExpTail (d :: ds ++ rest) = some ((digitsVal (d.toNat - 48) ds : Int), rest) := by
  have hdig := parseDigits_append ds (d.toNat - 48) rest hall hrest
  have hne : ¬d = '-' := isDigit_ne hd (by decide)
  have hne2 : ¬d = '+' := isDigit_ne hd (by decide)
  have hsub : parseExpDigits (d :: ds ++ rest) = some (digitsVal (d.toNat - 48) ds, rest) := by
    simp [parseExpDigits, hd, hdig]
  refine ⟨?_, ?_, ?_⟩
  · show (parseExpDigits (d :: ds ++ rest)).map (fun p => (-(p.1 : Int), p.2))
      = some (-(digitsVal (d.toNat - 48) ds : Int), rest)
    rw [hsub]
    rfl
  · show (parseExpDigits (d :: ds ++ rest)).map (fun p => ((p.1 : Int), p.2))
      = some ((digitsVal (d.toNat - 48) ds : Int), rest)
    rw [hsub]
    rfl
  · simp [parseExpTail, hne, hne2, hd, hdig]

theorem parseExpTail_pad (m : Nat) (rest : List Char)
    (hrest : ∀ x xs, rest = x :: xs → x.isDigit = false) :
    parseExpTail ('-' ::
        (if (natChars m).length < 2 then '0' :: natChars m else natChars m) ++ rest)
      = some (-(m : Int), rest)
    ∧ parseExpTail ('+' ::
        (if (natChars m).length < 2 then '0' :: natChars m else natChars m) ++ rest)
      = some ((m : Int), rest) := by
  obtain ⟨d, ds, hnat, hd⟩ := natChars_cons m
  have hall : ∀ x ∈ ds, x.isDigit = true := fun x hx =>
    natChars_digits m x (by rw [hnat]; exact List.mem_cons_of_mem _ hx)
  have hval : digitsVal (d.toNat - 48) ds = m := by
    have h0 := digitsVal_natChars m
    rw [hnat, digitsVal_cons] at h0
    simpa using h0
  by_cases hlen : (natChars m).length < 2
  · rw [if_pos hlen]
    have h0 : ('0' : Char).toNat - 48 = 0 := rfl
    have hall0 : ∀ x ∈ natChars m, x.isDigit = true := natChars_digits m
    have h1 := parseExpTail_digits '0' (natChars m) rest (by decide) hall0 hrest
    have hv0 : digitsVal (('0' : Char).toNat - 48) (natChars m) = m := by
      rw [h0]
      exact digitsVal_natChars m
    exact ⟨by rw [h1.1, hv0], by rw [h1.2.1, hv0]⟩
  · rw [if_neg hlen, hnat]
    have h1 := parseExpTail_digits d ds rest hd hall hrest
    exact ⟨by rw [h1.1, hval], by rw [h1.2.1, hval]⟩

theorem stripZeros_shift : ∀ (j fuel m : Nat) (e : Int), m % 10 ≠ 0 → j ≤ fuel →
    stripZeros fuel (m * 10 ^ j) e = (m, e + j)
  | 0, fuel, m, e, hm, _ => by
    rw [pow_zero, Nat.mul_one]
    cases fuel with
    | zero => simp [stripZeros]
    | succ f => simp [stripZeros, hm]
  | j + 1, fuel, m, e, hm, hj => by
    obtain ⟨f, rfl⟩ : ∃ f, fuel = f + 1 := ⟨fuel - 1, by omega⟩
    have h1 : m * 10 ^ (j + 1) % 10 = 0 := by
      rw [pow_succ, ← Nat.mul_assoc]
      exact Nat.mul_mod_left _ 10
    have h2 : m * 10 ^ (j + 1) / 10 = m * 10 ^ j := by
      rw [pow_succ, ← Nat.mul_assoc]
      exact Nat.mul_div_cancel _ (by norm_num)
    rw [stripZeros, if_pos h1, h2, stripZeros_shift j f m (e + 1) hm (by omega)]
    simp only [Prod.mk.injEq, true_and]
    push_cast
    ring

theorem mkFloat_eq (neg : Bool) (lead : Nat) (last : Fin 9) (e : Int) (j : Nat) :
    mkFloat neg (PyFloat.sig lead last * 10 ^ j) (e - (j : Int)) =
      Value.float (.finite neg lead last e) := by
  have hlt : last.val < 9 := last.isLt
  have hs : PyFloat.sig lead last = lead * 10 + last.val + 1 := rfl
  have hmod : PyFloat.sig lead last % 10 ≠ 0 := by omega
  have hMne : PyFloat.sig lead last * 10 ^ j ≠ 0 :=
    Nat.mul_ne_zero (by omega) (pow_pos (by norm_num : 0 < 10) j).ne'
  have hfuel : j ≤ PyFloat.sig lead last * 10 ^ j := by
    have h1 : j < 10 ^ j := Nat.lt_pow_self (by norm_num) j
    have h2 : 10 ^ j ≤ PyFloat.sig lead last * 10 ^ j :=
      Nat.le_mul_of_pos_left _ (by omega)
    omega
  unfold mkFloat
  rw [if_neg hMne]
  simp only [stripZeros_shift j (PyFloat.sig lead last * 10 ^ j) (PyFloat.sig lead last)
    (e - (j : Int)) hmod hfuel]
  have h10 : PyFloat.sig lead last / 10 = lead := by omega
  have h9 : (PyFloat.sig lead last % 10 - 1) % 9 = last.val := by omega
  have he : e - (j : Int) + (j : Int) = e := by ring
  simp only [h10, h9, he]

theorem parseNumTail_boundary (neg : Bool) (n : Nat) (rest : List Char)
    (hrest : ∀ c cs, rest = c :: cs → c = ',' ∨ c = ':' ∨ c = ']' ∨ c = ')' ∨ c = '\x7d') :
    parseNumTail neg n rest = (Value.int (applySign neg n), rest) := by
  cases rest with
  | nil => rfl
  | cons c r1 =>
    have h := hrest c r1 rfl
    have h1 : ¬c = '.' := by rcases h with h | h | h | h | h <;> subst h <;> decide
    have h2 : ¬(c = 'e' ∨ c = 'E') := by rcases h with h | h | h | h | h <;> subst h <;> decide
    simp only [parseNumTail, if_neg h1, if_neg h2]

theorem parseNumTail_frac (neg : Bool) (n : Nat) (fds rest : List Char)
    (hall : ∀ c ∈ fds, c.isDigit = true)
    (hrest : ∀ c cs, rest = c :: cs → c = ',' ∨ c = ':' ∨ c = ']' ∨ c = ')' ∨ c = '\x7d') :
    parseNumTail neg n ('.' :: (fds ++ rest)) =
      (mkFloat neg (n * 10 ^ fds.length + digitsVal 0 fds) (-(fds.length : Int)), rest) := by
  have hnd : ∀ x xs, rest = x :: xs → x.isDigit = false := fun x xs hx => by
    rcases hrest x xs hx with h | h | h | h | h <;> subst h <;> decide
  have hfrac := parseFrac_append fds 0 0 rest hall hnd
  cases rest with
  | nil =>
    rw [List.append_nil] at hfrac
    simp [parseNumTail, hfrac]
  | cons c cs =>
    have hce : ¬(c = 'e' ∨ c = 'E') := by
      rcases hrest c cs rfl with h | h | h | h | h <;> subst h <;> decide
    simp [parseNumTail, hfrac, hce]

theorem expSuffix_not_digit (z : Int) (rest : List Char) :
    ∀ x xs, expSuffix z ++ rest = x :: xs → x.isDigit = false := by
  intro x xs hx
  rw [show expSuffix z ++ rest
      = 'e' :: ((if z < 0 then '-' else '+') ::
        (if (natChars z.natAbs).length < 2 then '0' :: natChars z.natAbs
         else natChars z.natAbs) ++ rest) from by simp [expSuffix]] at hx
  injection hx with hx1 hx2
  rw [← hx1]
  decide

theorem parseNumTail_fracExp (neg : Bool) (n : Nat) (fds : List Char) (ex : Int)
    (rest : List Char) (hall : ∀ c ∈ fds, c.isDigit = true)
    (hrest : ∀ x xs, rest = x :: xs → x.isDigit = false) :
    parseNumTail neg n ('.' :: (fds ++ (expSuffix ex ++ rest))) =
      (mkFloat neg (n * 10 ^ fds.length + digitsVal 0 fds) (ex - (fds.length : Int)), rest) := by
  have hfrac := parseFrac_append fds 0 0 (expSuffix ex ++ rest) hall
    (expSuffix_not_digit ex rest)
  have hexpand : expSuffix ex ++ rest
      = 'e' :: ((if ex < 0 then '-' else '+') ::
        (if (natChars ex.natAbs).length < 2 then '0' :: natChars ex.natAbs
         else natChars ex.natAbs) ++ rest) := by simp [expSuffix]
  by_cases hneg : ex < 0
  · have h1 := (parseExpTail_pad ex.natAbs rest hrest).1
    rw [hexpand, if_pos hneg] at hfrac ⊢
    simp only [List.cons_append] at hfrac h1 ⊢
    simp [parseNumTail, hfrac, h1, show -((ex.natAbs : Int)) = ex from by omega]
    rw [abs_of_neg hneg, neg_neg]
  · have h1 := (parseExpTail_pad ex.natAbs rest hrest).2
    rw [hexpand, if_neg hneg] at hfrac ⊢
    simp only [List.cons_append] at hfrac h1 ⊢
    simp [parseNumTail, hfrac, h1, show ((ex.natAbs : Int)) = ex from by omega]

theorem parseNumTail_exp (neg : Bool) (n : Nat) (ex : Int) (rest : List Char)
    (hrest : ∀ x xs, rest = x :: xs → x.isDigit = false) :
    parseNumTail neg n (expSuffix ex ++ rest) = (mkFloat neg n ex, rest) := by
  have hexpand : expSuffix ex ++ rest
      = 'e' :: ((if ex < 0 then '-' else '+') ::
        (if (natChars ex.natAbs).length < 2 then '0' :: natChars ex.natAbs
         else natChars ex.natAbs) ++ rest) := by simp [expSuffix]
  by_cases hneg : ex < 0
  · have h1 := (parseExpTail_pad ex.natAbs rest hrest).1
    rw [hexpand, if_pos hneg]
    simp only [List.cons_append] at h1 ⊢
    simp [parseNumTail, h1, show -((ex.natAbs : Int)) = ex from by omega]
    rw [abs_of_neg hneg, neg_neg]
  · have h1 := (parseExpTail_pad ex.natAbs rest hrest).2
    rw [hexpand, if_neg hneg]
    simp only [List.cons_append] at h1 ⊢
    simp [parseNumTail, h1, show ((ex.natAbs : Int)) = ex from by omega]

theorem mkFloat_eq_zero (neg : Bool) (lead : Nat) (last : Fin 9) (e : Int) :
    mkFloat neg (PyFloat.sig lead last) e = Value.float (.finite neg lead last e) := by
  have h := mkFloat_eq neg lead last e 0
  rw [pow_zero, Nat.mul_one] at h
  simpa using h

theorem parseNumTail_floatBody (neg : Bool) (lead : Nat) (last : Fin 9) (e : Int)
    (rest : List Char)
    (hrest : ∀ c cs, rest = c :: cs → c = ',' ∨ c = ':' ∨ c = ']' ∨ c = ')' ∨ c = '\x7d') :
    ∃ d ds1 tail1,
      floatBody (natChars (PyFloat.sig lead last)) e = d :: ds1 ++ tail1
      ∧ d.isDigit = true
      ∧ (∀ c ∈ ds1, c.isDigit = true)
      ∧ (∀ x xs, tail1 ++ rest = x :: xs → x.isDigit = false)
      ∧ parseNumTail neg (digitsVal (d.toNat - 48) ds1) (tail1 ++ rest)
          = (Value.float (.finite neg lead last e), rest) := by
  have hnd : ∀ x xs, rest = x :: xs → x.isDigit = false := fun x xs hx => by
    rcases hrest x xs hx with h | h | h | h | h <;> subst h <;> decide
  obtain ⟨d, ds0, hnat, hd⟩ := natChars_cons (PyFloat.sig lead last)
  have hallN : ∀ c ∈ d :: ds0, c.isDigit = true := by
    rw [← hnat]
    exact natChars_digits _
  have hall0 : ∀ c ∈ ds0, c.isDigit = true := fun c hc => hallN c (List.mem_cons_of_mem _ hc)
  have hvalN : digitsVal 0 (d :: ds0) = PyFloat.sig lead last := by
    rw [← hnat]
    exact digitsVal_natChars _
  have hvald : digitsVal (d.toNat - 48) ds0 = PyFloat.sig lead last := by
    rw [digitsVal_cons] at hvalN
    simpa using hvalN
  by_cases h1 : -4 ≤ ((d :: ds0).length : Int) - 1 + e ∧ ((d :: ds0).length : Int) - 1 + e ≤ 15
  · by_cases h2 : (0 : Int) ≤ e
    · have hb : floatBody (natChars (PyFloat.sig lead last)) e
          = (d :: ds0) ++ List.replicate e.toNat '0' ++ ['.', '0'] := by
        rw [hnat]
        unfold floatBody
        rw [if_pos h1, if_pos h2]
      rw [hb]
      refine ⟨d, ds0 ++ List.replicate e.toNat '0', ['.', '0'], by simp, hd, ?_, ?_, ?_⟩
      · intro c hc
        rcases List.mem_append.mp hc with h | h
        · exact hall0 c h
        · exact replicate_zero_digits _ c h
      · intro x xs hx
        rw [List.cons_append] at hx
        injection hx with hx1 hx2
        rw [← hx1]
        decide
      · have hn : digitsVal (d.toNat - 48) (ds0 ++ List.replicate e.toNat '0')
            = PyFloat.sig lead last * 10 ^ e.toNat := by
          rw [digitsVal_append, hvald, digitsVal_zeros]
        have hm : PyFloat.sig lead last * 10 ^ e.toNat * 10 ^ (['0'] : List Char).length
            + digitsVal 0 ['0'] = PyFloat.sig lead last * 10 ^ (e.toNat + 1) := by
          show PyFloat.sig lead last * 10 ^ e.toNat * 10 ^ 1 + digitsVal 0 ['0'] = _
          have hz : digitsVal 0 (['0'] : List Char) = 0 := by decide
          rw [hz, pow_succ 10 e.toNat]
          ring
        have he : (-(((['0'] : List Char).length : Int))) = e - ((e.toNat + 1 : Nat) : Int) := by
          show (-(1 : Int)) = e - ((e.toNat + 1 : Nat) : Int)
          omega
        rw [hn, show (['.', '0'] : List Char) ++ rest = '.' :: (['0'] ++ rest) from rfl,
          parseNumTail_frac neg _ ['0'] rest (by decide) hrest, hm, he,
          mkFloat_eq neg lead last e (e.toNat + 1)]
    · have he0 : e < 0 := by omega
      by_cases h3 : (-e).toNat < (d :: ds0).length
      · have hb : floatBody (natChars (PyFloat.sig lead last)) e
            = (d :: ds0).take ((d :: ds0).length - (-e).toNat)
              ++ '.' :: (d :: ds0).drop ((d :: ds0).length - (-e).toNat) := by
          rw [hnat]
          unfold floatBody
          rw [if_pos h1, if_neg h2, if_pos h3]
        have hk : (d :: ds0).length - (-e).toNat
            = ((d :: ds0).length - (-e).toNat - 1) + 1 := by
          simp only [List.length_cons] at h3 ⊢
          omega
        have htake : (d :: ds0).take ((d :: ds0).length - (-e).toNat)
            = d :: ds0.take ((d :: ds0).length - (-e).toNat - 1) := by
          nth_rewrite 1 [hk]
          rw [List.take_succ_cons]
        have hsplit := digitsVal_split (d :: ds0) (-e).toNat (by omega) hallN
        have hdroplen : ((d :: ds0).drop ((d :: ds0).length - (-e).toNat)).length
            = (-e).toNat := by
          rw [List.length_drop]
          omega
        have hdropall : ∀ c ∈ (d :: ds0).drop ((d :: ds0).length - (-e).toNat),
            c.isDigit = true := fun c hc => hallN c (List.drop_subset _ _ hc)
        rw [hb, htake]
        refine ⟨d, ds0.take ((d :: ds0).length - (-e).toNat - 1),
          '.' :: (d :: ds0).drop ((d :: ds0).length - (-e).toNat), by simp, hd,
          fun c hc => hall0 c (List.take_subset _ _ hc), ?_, ?_⟩
        · intro x xs hx
          rw [List.cons_append] at hx
          injection hx with hx1 hx2
          rw [← hx1]
          decide
        · have hn : digitsVal (d.toNat - 48)
              (ds0.take ((d :: ds0).length - (-e).toNat - 1))
              = PyFloat.sig lead last / 10 ^ (-e).toNat := by
            have h0 := hsplit.1
            rw [htake, digitsVal_cons, hvalN] at h0
            simpa using h0
          have hfv : digitsVal 0 ((d :: ds0).drop ((d :: ds0).length - (-e).toNat))
              = PyFloat.sig lead last % 10 ^ (-e).toNat := by
            have h0 := hsplit.2
            rwa [hvalN] at h0
          have hm : PyFloat.sig lead last / 10 ^ (-e).toNat * 10 ^ (-e).toNat
              + PyFloat.sig lead last % 10 ^ (-e).toNat = PyFloat.sig lead last :=
            Nat.div_add_mod' _ _
          have hexp : (-(((-e).toNat : Int))) = e := by omega
          rw [show ('.' :: (d :: ds0).drop ((d :: ds0).length - (-e).toNat)) ++ rest
              = '.' :: ((d :: ds0).drop ((d :: ds0).length - (-e).toNat) ++ rest) from rfl,
            parseNumTail_frac neg _ _ rest hdropall hrest, hdroplen, hn, hfv, hm, hexp,
            mkFloat_eq_zero]
      · have hb : floatBody (natChars (PyFloat.sig lead last)) e
            = '0' :: '.' :: (List.replicate ((-e).toNat - (d :: ds0).length) '0'
              ++ (d :: ds0)) := by
          rw [hnat]
          unfold floatBody
          rw [if_pos h1, if_neg h2, if_neg h3]
        rw [hb]
        refine ⟨'0', [],
          '.' :: (List.replicate ((-e).toNat - (d :: ds0).length) '0' ++ (d :: ds0)),
          by simp, by decide, by simp, ?_, ?_⟩
        · intro x xs hx
          rw [List.cons_append] at hx
          injection hx with hx1 hx2
          rw [← hx1]
          decide
        · have hfall : ∀ c ∈ List.replicate ((-e).toNat - (d :: ds0).length) '0'
              ++ (d :: ds0), c.isDigit = true := by
            intro c hc
            rcases List.mem_append.mp hc with h | h
            · exact replicate_zero_digits _ c h
            · exact hallN c h
          have hflen : (List.replicate ((-e).toNat - (d :: ds0).length) '0'
              ++ (d :: ds0)).length = (-e).toNat := by
            simp only [List.length_append, List.length_replicate, List.length_cons] at h3 ⊢
            omega
          have hfval : digitsVal 0 (List.replicate ((-e).toNat - (d :: ds0).length) '0'
              ++ (d :: ds0)) = PyFloat.sig lead last := by
            rw [digitsVal_append, digitsVal_zeros, Nat.zero_mul, hvalN]
          have h00 : digitsVal (('0' : Char).toNat - 48) ([] : List Char) = 0 := by decide
          have hm : 0 * 10 ^ (-e).toNat + PyFloat.sig lead last
              = PyFloat.sig lead last := by
            simp
          have hexp : (-(((-e).toNat : Int))) = e := by omega
          rw [show ('.' :: (List.replicate ((-e).toNat - (d :: ds0).length) '0'
                ++ (d :: ds0))) ++ rest
              = '.' :: ((List.replicate ((-e).toNat - (d :: ds0).length) '0'
                ++ (d :: ds0)) ++ rest) from rfl,
            parseNumTail_frac neg _ _ rest hfall hrest, hflen, hfval, h00, hm, hexp,
            mkFloat_eq_zero]
  · cases ds0 with
    | nil =>
      have hb : floatBody (natChars (PyFloat.sig lead last)) e
          = d :: expSuffix ((([d] : List Char).length : Int) - 1 + e) := by
        rw [hnat]
        unfold floatBody
        rw [if_neg h1]
        simp
      rw [hb]
      refine ⟨d, [], expSuffix ((([d] : List Char).length : Int) - 1 + e), by simp, hd,
        by simp, expSuffix_not_digit _ rest, ?_⟩
      rw [parseNumTail_exp neg _ _ rest hnd]
      have hn : digitsVal (d.toNat - 48) ([] : List Char) = PyFloat.sig lead last := hvald
      have hexp : ((([d] : List Char).length : Int) - 1 + e) = e := by
        simp
      rw [hn, hexp, mkFloat_eq_zero]
    | cons d2 ds2 =>
      have hb : floatBody (natChars (PyFloat.sig lead last)) e
          = d :: '.' :: ((d2 :: ds2)
            ++ expSuffix (((d :: d2 :: ds2).length : Int) - 1 + e)) := by
        rw [hnat]
        unfold floatBody
        rw [if_neg h1]
        simp
      rw [hb]
      refine ⟨d, [],
        '.' :: ((d2 :: ds2) ++ expSuffix (((d :: d2 :: ds2).length : Int) - 1 + e)),
        by simp, hd, by simp, ?_, ?_⟩
      · intro x xs hx
        rw [List.cons_append] at hx
        injection hx with hx1 hx2
        rw [← hx1]
        decide
      · rw [show ('.' :: ((d2 :: ds2)
              ++ expSuffix (((d :: d2 :: ds2).length : Int) - 1 + e))) ++ rest
            = '.' :: ((d2 :: ds2)
              ++ (expSuffix (((d :: d2 :: ds2).length : Int) - 1 + e) ++ rest)) from by simp,
          parseNumTail_fracExp neg _ (d2 :: ds2) _ rest hall0 hnd]
        have hsplit := digitsVal_split (d :: d2 :: ds2) (d2 :: ds2).length (by simp) hallN
        rw [show (d :: d2 :: ds2).length - (d2 :: ds2).length = 1 from by simp,
          show (d :: d2 :: ds2).take 1 = [d] from rfl,
          show (d :: d2 :: ds2).drop 1 = d2 :: ds2 from rfl, hvalN] at hsplit
        have hn : digitsVal (d.toNat - 48) ([] : List Char)
            = PyFloat.sig lead last / 10 ^ (d2 :: ds2).length := by
          have h0 := hsplit.1
          rw [show digitsVal 0 [d] = digitsVal (d.toNat - 48) ([] : List Char) from by
            simp [digitsVal]] at h0
          exact h0
        have hm : PyFloat.sig lead last / 10 ^ (d2 :: ds2).length * 10 ^ (d2 :: ds2).length
            + PyFloat.sig lead last % 10 ^ (d2 :: ds2).length = PyFloat.sig lead last :=
          Nat.div_add_mod' _ _
        have hexp : ((d :: d2 :: ds2).length : Int) - 1 + e - ((d2 :: ds2).length : Int)
            = e := by
          simp only [List.length_cons]
          push_cast
          ring
        rw [hn, hsplit.2, hm, hexp, mkFloat_eq_zero]

theorem hexVal_hexDigitChar {n : Nat} (h : n < 16) : hexVal (hexDigitChar n) = some n := by
  interval_cases n <;> rfl

theorem expectChars_append : ∀ (p rest : List Char), expectChars p (p ++ rest) = some rest := by
  intro p
  induction p with
  | nil => intro rest; rfl
  | cons c cs ih => intro rest; simp [expectChars, ih]

theorem skipWs_not_ws {c : Char} (h : isWsChar c = false) (l : List Char) :
    skipWs (c :: l) = c :: l := by
  simp [skipWs, h]

theorem skipWs_ws {c : Char} (h : isWsChar c = true) (l : List Char) :
    skipWs (c :: l) = skipWs l := by
  simp [skipWs, h]

theorem pyPrintable_bounds {c : Char} (h : pyPrintable c = false) :
    c.toNat < 32 ∨ c.toNat = 127 := by
  simp [pyPrintable] at h
  omega

theorem quoteChoice_cases (s : List Char) : quoteChoice s = '\x27' ∨ quoteChoice s = '"' := by
  unfold quoteChoice
  split
  · exact Or.inr rfl
  · exact Or.inl rfl

theorem parseStrBody_rt (q : Char) (hq : q = '\x27' ∨ q = '"') :
    ∀ (l rest : List Char),
    parseStrBody q (escBody q l ++ q :: rest) = some (l, rest) := by
  intro l
  induction l with
  | nil =>
    intro rest
    rw [escBody, List.nil_append, parseStrBody.eq_def]
    simp
  | cons c cs ih =>
    intro rest
    rw [escBody, List.append_assoc]
    rcases hq with hq | hq <;> subst hq <;>
    · by_cases h1 : c = '\\'
      · subst h1
        simp +decide only [escChar]
        rw [parseStrBody.eq_def]
        simp +decide [ih]
      · by_cases h2 : c = '\x27'
        · subst h2
          simp +decide only [escChar]
          rw [parseStrBody.eq_def]
          simp +decide [ih]
        · by_cases h2b : c = '"'
          · subst h2b
            simp +decide only [escChar]
            rw [parseStrBody.eq_def]
            simp +decide [ih]
          · by_cases h3 : c = '\n'
            · subst h3
              simp +decide only [escChar]
              rw [parseStrBody.eq_def]
              simp +decide [ih]
            · by_cases h4 : c = '\r'
              · subst h4
                simp +decide only [escChar]
                rw [parseStrBody.eq_def]
                simp +decide [ih]
              · by_cases h5 : c = '\t'
                · subst h5
                  simp +decide only [escChar]
                  rw [parseStrBody.eq_def]
                  simp +decide [ih]
                · by_cases h6 : pyPrintable c = true
                  · simp only [escChar, if_neg h1, if_neg h2, if_neg h2b, if_neg h3, if_neg h4,
                      if_neg h5, if_pos h6, List.singleton_append]
                    rw [parseStrBody.eq_def]
                    simp [ih, h1, h2, h2b]
                  · have hb := pyPrintable_bounds (by simpa using h6)
                    have hdiv : c.toNat / 16 < 16 := by omega
                    have hmod : c.toNat % 16 < 16 := by omega
                    have hc : Char.ofNat (16 * (c.toNat / 16) + c.toNat % 16) = c := by
                      have harg : 16 * (c.toNat / 16) + c.toNat % 16 = c.toNat := by omega
                      rw [harg, Char.ofNat_toNat]
                    simp only [escChar, if_neg h1, if_neg h2, if_neg h2b, if_neg h3, if_neg h4,
                      if_neg h5, if_neg h6, List.cons_append, List.nil_append]
                    rw [parseStrBody.eq_def]
                    simp +decide [hexVal_hexDigitChar hdiv, hexVal_hexDigitChar hmod, hc, ih]

mutual
/-- Fuel sufficient for `parseVal` on the encoding of a value
(see `parse_rt`). -/
def sizeV : Value → Nat
  | .str _ => 2
  | .int _ => 2
  | .float _ => 2
  | .bool _ => 2
  | .pyNone => 2
  | .list vs => 2 + sizeL vs
  | .tuple vs => 2 + sizeL vs
  | .set vs => 2 + sizeL vs
  | .dict ps => 2 + sizeP ps

/-- Fuel sufficient for `parseElemsRest` on an encoded element tail. -/
def sizeL : List Value → Nat
  | [] => 1
  | v :: vs => 1 + sizeV v + sizeL vs

/-- Fuel sufficient for `parsePairsRest` on an encoded pair tail. -/
def sizeP : List (Value × Value) → Nat
  | [] => 1
  | (k, w) :: ps => 1 + sizeV k + sizeV w + sizeP ps
end

theorem sizeV_ge (v : Value) : 2 ≤ sizeV v := by
  cases v <;> simp [sizeV]

theorem sizeL_ge (vs : List Value) : 1 ≤ sizeL vs := by
  cases vs with
  | nil => simp [sizeL]
  | cons v vs => simp [sizeL]; omega

theorem sizeP_ge (ps : List (Value × Value)) : 1 ≤ sizeP ps := by
  cases ps with
  | nil => simp [sizeP]
  | cons p ps => obtain ⟨k, w⟩ := p; simp [sizeP]; omega

/-- The characters the encoding of a value can start with. -/
def goodStart (c : Char) : Prop :=
  c = '\x27' ∨ c = '"' ∨ c = '[' ∨ c = '(' ∨ c = '\x7b' ∨ c = 'T' ∨ c = 'F' ∨ c = 'N' ∨
    c = 's' ∨ c = '-' ∨ c.isDigit = true

instance : DecidablePred goodStart := fun c => by
  unfold goodStart
  infer_instance

theorem isDigit_not_ws {c : Char} (h : c.isDigit = true) : isWsChar c = false := by
  have h1 : c ≠ ' ' := isDigit_ne h (by decide)
  have h2 : c ≠ '\n' := isDigit_ne h (by decide)
  have h3 : c ≠ '\t' := isDigit_ne h (by decide)
  have h4 : c ≠ '\r' := isDigit_ne h (by decide)
  simp [isWsChar, h1, h2, h3, h4]

theorem goodStart_not_ws {c : Char} (h : goodStart c) : isWsChar c = false := by
  rcases h with h | h | h | h | h | h | h | h | h | h | h
  all_goals first
    | (subst h; rfl)
    | exact isDigit_not_ws h

theorem goodStart_ne_close {c : Char} (h : goodStart c) :
    c ≠ ']' ∧ c ≠ ')' ∧ c ≠ '\x7d' ∧ c ≠ ',' ∧ c ≠ ':' := by
  refine ⟨?_, ?_, ?_, ?_, ?_⟩ <;>
  · rcases h with h | h | h | h | h | h | h | h | h | h | h
    all_goals try (subst h; decide)
    all_goals exact isDigit_ne h (by decide)

theorem floatBody_cons (e : Int) (d : Char) (ds0 : List Char) (hd : d.isDigit = true) :
    ∃ c cs, floatBody (d :: ds0) e = c :: cs ∧ c.isDigit = true := by
  unfold floatBody
  by_cases h1 : -4 ≤ ((d :: ds0).length : Int) - 1 + e ∧ ((d :: ds0).length : Int) - 1 + e ≤ 15
  · rw [if_pos h1]
    by_cases h2 : (0 : Int) ≤ e
    · rw [if_pos h2]
      refine ⟨d, ds0 ++ (List.replicate e.toNat '0' ++ ['.', '0']), ?_, hd⟩
      simp
    · rw [if_neg h2]
      by_cases h3 : (-e).toNat < (d :: ds0).length
      · rw [if_pos h3]
        have hk : (d :: ds0).length - (-e).toNat = ((d :: ds0).length - (-e).toNat - 1) + 1 := by
          simp only [List.length_cons] at h3 ⊢
          omega
        refine ⟨d, ds0.take ((d :: ds0).length - (-e).toNat - 1)
            ++ '.' :: (d :: ds0).drop ((d :: ds0).length - (-e).toNat), ?_, hd⟩
        nth_rewrite 1 [hk]
        rw [List.take_succ_cons]
        simp
      · rw [if_neg h3]
        exact ⟨'0', '.' :: (List.replicate ((-e).toNat - (d :: ds0).length) '0'
          ++ (d :: ds0)), rfl, by decide⟩
  · rw [if_neg h1]
    cases ds0 with
    | nil =>
      refine ⟨d, expSuffix ((([d] : List Char).length : Int) - 1 + e), ?_, hd⟩
      simp
    | cons d2 ds2 =>
      refine ⟨d, '.' :: ((d2 :: ds2)
        ++ expSuffix (((d :: d2 :: ds2).length : Int) - 1 + e)), ?_, hd⟩
      simp

theorem floatChars_cons (pf : PyFloat) : ∃ c cs, floatChars pf = c :: cs ∧ goodStart c := by
  cases pf with
  | zero neg =>
    cases neg
    · exact ⟨'0', ['.', '0'], rfl, by decide⟩
    · exact ⟨'-', ['0', '.', '0'], rfl, by decide⟩
  | finite neg lead last e =>
    obtain ⟨d, ds0, hnat, hd⟩ := natChars_cons (PyFloat.sig lead last)
    cases neg
    · obtain ⟨c, cs, hc, hcd⟩ := floatBody_cons e d ds0 hd
      refine ⟨c, cs, ?_, by simp [goodStart, hcd]⟩
      show floatBody (natChars (PyFloat.sig lead last)) e = c :: cs
      rw [hnat, hc]
    · exact ⟨'-', floatBody (natChars (PyFloat.sig lead last)) e,
        by simp [floatChars], by decide⟩

mutual
theorem encChars_cons : ∀ v : Value, ∃ c cs, encChars v = c :: cs ∧ goodStart c
  | .str s => by
    rcases quoteChoice_cases s.data with h | h
    · refine ⟨'\x27', escBody '\x27' s.data ++ ['\x27'], ?_, by decide⟩
      simp [encChars, strChars, h]
    · refine ⟨'"', escBody '"' s.data ++ ['"'], ?_, by decide⟩
      simp [encChars, strChars, h]
  | .int (Int.ofNat m) => by
    obtain ⟨c, cs, hc, hd⟩ := natChars_cons m
    exact ⟨c, cs, by simp [encChars, intChars, hc], by simp [goodStart, hd]⟩
  | .int (Int.negSucc m) => ⟨'-', natChars (m + 1), rfl, by decide⟩
  | .float pf => by
    obtain ⟨c, cs, hc, hg⟩ := floatChars_cons pf
    exact ⟨c, cs, by simp [encChars, hc], hg⟩
  | .bool true => ⟨'T', ['r', 'u', 'e'], rfl, by decide⟩
  | .bool false => ⟨'F', ['a', 'l', 's', 'e'], rfl, by decide⟩
  | .pyNone => ⟨'N', ['o', 'n', 'e'], rfl, by decide⟩
  | .list vs => ⟨'[', encElems vs ++ [']'], rfl, by decide⟩
  | .tuple [] => ⟨'(', [')'], rfl, by decide⟩
  | .tuple [v] => ⟨'(', encChars v ++ [',', ')'], rfl, by decide⟩
  | .tuple (v :: w :: vs) => ⟨'(', encElems (v :: w :: vs) ++ [')'], rfl, by decide⟩
  | .set [] => ⟨'s', ['e', 't', '(', ')'], rfl, by decide⟩
  | .set (v :: vs) => ⟨'\x7b', encElems (v :: vs) ++ ['\x7d'], rfl, by decide⟩
  | .dict ps => ⟨'\x7b', encPairs ps ++ ['\x7d'], rfl, by decide⟩
end

/-- The encoding of the residual elements of a container: a `", "` before
each further element. -/
def sepTail : List Value → List Char
  | [] => []
  | v :: vs => ',' :: ' ' :: (encChars v ++ sepTail vs)

/-- The encoding of the residual pairs of a dict. -/
def pairsTail : List (Value × Value) → List Char
  | [] => []
  | (k, w) :: ps => ',' :: ' ' :: (encChars k ++ ':' :: ' ' :: (encChars w ++ pairsTail ps))

theorem encElems_eq : ∀ (v : Value) (vs : List Value),
    encElems (v :: vs) = encChars v ++ sepTail vs := by
  intro v vs
  induction vs generalizing v with
  | nil => simp [encElems, sepTail]
  | cons w ws ih =>
    rw [show encElems (v :: w :: ws) = encChars v ++ ',' :: ' ' :: encElems (w :: ws) from rfl,
      ih w, sepTail]

theorem encPairs_eq : ∀ (k w : Value) (ps : List (Value × Value)),
    encPairs ((k, w) :: ps) = encChars k ++ ':' :: ' ' :: (encChars w ++ pairsTail ps) := by
  intro k w ps
  induction ps generalizing k w with
  | nil => simp [encPairs, pairsTail]
  | cons p ps ih =>
    obtain ⟨k2, w2⟩ := p
    rw [show encPairs ((k, w) :: (k2, w2) :: ps)
        = encChars k ++ ':' :: ' ' :: encChars w ++ ',' :: ' ' :: encPairs ((k2, w2) :: ps)
      from rfl, ih k2 w2, pairsTail]
    simp

theorem skipWs_enc (v : Value) (r : List Char) :
    skipWs (encChars v ++ r) = encChars v ++ r := by
  obtain ⟨c, cs, hc, hg⟩ := encChars_cons v
  rw [hc, List.cons_append, skipWs_not_ws (goodStart_not_ws hg)]

theorem parseVal_ws (fuel : Nat) (x : List Char) :
    parseVal fuel (' ' :: x) = parseVal fuel x := by
  cases fuel with
  | zero => rfl
  | succ f =>
    have h : skipWs (' ' :: x) = skipWs x := skipWs_ws (by decide) x
    simp only [parseVal, h]

theorem boundary_sepTail (vs : List Value) (close : Char)
    (hclose : close = ']' ∨ close = ')' ∨ close = '\x7d') (rest : List Char) :
    ∀ c cs, sepTail vs ++ close :: rest = c :: cs →
      c = ',' ∨ c = ':' ∨ c = ']' ∨ c = ')' ∨ c = '\x7d' := by
  intro c cs h
  cases vs with
  | nil =>
    rw [sepTail, List.nil_append] at h
    injection h with h1 h2
    subst h1
    rcases hclose with h2 | h2 | h2 <;> subst h2 <;> simp
  | cons v vs =>
    rw [sepTail] at h
    injection h with h1 h2
    subst h1
    simp

theorem boundary_pairsTail (ps : List (Value × Value)) (rest : List Char) :
    ∀ c cs, pairsTail ps ++ '\x7d' :: rest = c :: cs →
      c = ',' ∨ c = ':' ∨ c = ']' ∨ c = ')' ∨ c = '\x7d' := by
  intro c cs h
  cases ps with
  | nil =>
    rw [pairsTail, List.nil_append] at h
    injection h with h1 h2
    subst h1
    simp
  | cons p ps =>
    obtain ⟨k, w⟩ := p
    rw [pairsTail] at h
    injection h with h1 h2
    subst h1
    simp

theorem parseVal_cons (f : Nat) (c : Char) (cs : List Char) (h : isWsChar c = false) :
    parseVal (f + 1) (c :: cs) =
      if c = '\x27' then (parseStrBody '\x27' cs).map (fun p => (Value.str (String.mk p.1), p.2))
      else if c = '"' then (parseStrBody '"' cs).map (fun p => (Value.str (String.mk p.1), p.2))
      else if c = '[' then parseListBody f cs
      else if c = '(' then parseParenBody f cs
      else if c = '\x7b' then parseBraceBody f cs
      else if c = 'T' then (expectChars ['r', 'u', 'e'] cs).map (fun r => (Value.bool true, r))
      else if c = 'F' then (expectChars ['a', 'l', 's', 'e'] cs).map (fun r => (Value.bool false, r))
      else if c = 'N' then (expectChars ['o', 'n', 'e'] cs).map (fun r => (Value.pyNone, r))
      else if c = 's' then (expectChars ['e', 't', '(', ')'] cs).map (fun r => (Value.set [], r))
      else if c = '-' then
        match cs with
        | [] => none
        | d :: ds =>
          if d.isDigit then
            some (parseNumTail true (parseDigits (d.toNat - 48) ds).1
              (parseDigits (d.toNat - 48) ds).2)
          else none
      else if c.isDigit then
        some (parseNumTail false (parseDigits (c.toNat - 48) cs).1
          (parseDigits (c.toNat - 48) cs).2)
      else none := by
  simp only [parseVal, skipWs_not_ws h]

theorem parseListBody_cons (f : Nat) (c : Char) (cs : List Char) (h : isWsChar c = false) :
    parseListBody (f + 1) (c :: cs) =
      if c = ']' then some (Value.list [], cs)
      else
        match parseVal f (c :: cs) with
        | none => none
        | some (v, r1) =>
          match parseElemsRest f ']' r1 with
          | none => none
          | some (vs, r2) => some (Value.list (v :: vs), r2) := by
  simp only [parseListBody, skipWs_not_ws h]

theorem parseParenBody_cons (f : Nat) (c : Char) (cs : List Char) (h : isWsChar c = false) :
    parseParenBody (f + 1) (c :: cs) =
      if c = ')' then some (Value.tuple [], cs)
      else
        match parseVal f (c :: cs) with
        | none => none
        | some (v, r1) =>
          match skipWs r1 with
          | [] => none
          | c2 :: r2 =>
            if c2 = ')' then some (v, r2)
            else if c2 = ',' then
              match parseElemsRest f ')' r1 with
              | none => none
              | some (vs, r3) => some (Value.tuple (v :: vs), r3)
            else none := by
  simp only [parseParenBody, skipWs_not_ws h]

theorem parseBraceBody_cons (f : Nat) (c : Char) (cs : List Char) (h : isWsChar c = false) :
    parseBraceBody (f + 1) (c :: cs) =
      if c = '\x7d' then some (Value.dict [], cs)
      else
        match parseVal f (c :: cs) with
        | none => none
        | some (k, r1) =>
          match skipWs r1 with
          | [] => none
          | c2 :: r2 =>
            if c2 = ':' then
              match parseVal f r2 with
              | none => none
              | some (w, r3) =>
                match parsePairsRest f r3 with
                | none => none
                | some (ps, r4) => some (Value.dict ((k, w) :: ps), r4)
            else
              match parseElemsRest f '\x7d' r1 with
              | none => none
              | some (vs, r3) => some (Value.set (k :: vs), r3) := by
  simp only [parseBraceBody, skipWs_not_ws h]

theorem parseElemsRest_cons (f : Nat) (close c : Char) (cs : List Char) (h : isWsChar c = false) :
    parseElemsRest (f + 1) close (c :: cs) =
      if c = close then some ([], cs)
      else if c = ',' then
        match skipWs cs with
        | [] => none
        | d :: ds =>
          if d = close then some ([], ds)
          else
            match parseVal f cs with
            | none => none
            | some (v, r1) =>
              match parseElemsRest f close r1 with
              | none => none
              | some (vs, r2) => some (v :: vs, r2)
      else none := by
  simp only [parseElemsRest, skipWs_not_ws h]

theorem parsePairsRest_cons (f : Nat) (c : Char) (cs : List Char) (h : isWsChar c = false) :
    parsePairsRest (f + 1) (c :: cs) =
      if c = '\x7d' then some ([], cs)
      else if c = ',' then
        match skipWs cs with
        | [] => none
        | d :: ds =>
          if d = '\x7d' then some ([], ds)
          else
            match parseVal f cs with
            | none => none
            | some (k, r1) =>
              match skipWs r1 with
              | [] => none
              | c2 :: r2 =>
                if c2 = ':' then
                  match parseVal f r2 with
                  | none => none
                  | some (w, r3) =>
                    match parsePairsRest f r3 with
                    | none => none
                    | some (ps, r4) => some ((k, w) :: ps, r4)
                else none
      else none := by
  simp only [parsePairsRest, skipWs_not_ws h]

theorem parseElemsRest_close (f : Nat) (close : Char) (rest : List Char)
    (h : close = ']' ∨ close = ')' ∨ close = '\x7d') :
    parseElemsRest (f + 1) close (',' :: close :: rest) = some ([], rest) := by
  rcases h with h | h | h <;> subst h <;>
  · rw [parseElemsRest_cons f _ ',' _ (by decide), if_neg (by decide), if_pos rfl,
      skipWs_not_ws (by decide)]
    simp

theorem parseVal_numToken_pos (f : Nat) (d : Char) (ds tail : List Char)
    (hd : d.isDigit = true) (hall : ∀ c ∈ ds, c.isDigit = true)
    (htail : ∀ x xs, tail = x :: xs → x.isDigit = false) :
    parseVal (f + 1) (d :: (ds ++ tail)) =
      some (parseNumTail false (digitsVal (d.toNat - 48) ds) tail) := by
  rw [parseVal_cons f d (ds ++ tail) (isDigit_not_ws hd)]
  rw [if_neg (isDigit_ne hd (by decide)), if_neg (isDigit_ne hd (by decide)),
    if_neg (isDigit_ne hd (by decide)), if_neg (isDigit_ne hd (by decide)),
    if_neg (isDigit_ne hd (by decide)), if_neg (isDigit_ne hd (by decide)),
    if_neg (isDigit_ne hd (by decide)), if_neg (isDigit_ne hd (by decide)),
    if_neg (isDigit_ne hd (by decide)), if_neg (isDigit_ne hd (by decide)),
    if_pos hd]
  rw [parseDigits_append ds _ tail hall htail]

theorem parseVal_numToken_neg (f : Nat) (d : Char) (ds tail : List Char)
    (hd : d.isDigit = true) (hall : ∀ c ∈ ds, c.isDigit = true)
    (htail : ∀ x xs, tail = x :: xs → x.isDigit = false) :
    parseVal (f + 1) ('-' :: d :: (ds ++ tail)) =
      some (parseNumTail true (digitsVal (d.toNat - 48) ds) tail) := by
  rw [parseVal_cons f '-' (d :: (ds ++ tail)) (by decide)]
  rw [if_neg (by decide), if_neg (by decide), if_neg (by decide), if_neg (by decide),
    if_neg (by decide), if_neg (by decide), if_neg (by decide), if_neg (by decide),
    if_neg (by decide), if_pos rfl]
  simp only [hd, if_true]
  rw [parseDigits_append ds _ tail hall htail]

theorem parseVal_floatChars (f : Nat) (pf : PyFloat) (rest : List Char)
    (hrest : ∀ c cs, rest = c :: cs → c = ',' ∨ c = ':' ∨ c = ']' ∨ c = ')' ∨ c = '\x7d') :
    parseVal (f + 1) (floatChars pf ++ rest) = some (Value.float pf, rest) := by
  cases pf with
  | zero neg =>
    have hfrac := parseNumTail_frac neg (digitsVal (('0' : Char).toNat - 48) []) ['0'] rest
      (by decide) hrest
    have hmk : mkFloat neg
        (digitsVal (('0' : Char).toNat - 48) [] * 10 ^ (['0'] : List Char).length
          + digitsVal 0 ['0'])
        (-(((['0'] : List Char).length : Int)))
        = Value.float (.zero neg) := by
      show mkFloat neg 0 (-(1 : Int)) = Value.float (.zero neg)
      simp [mkFloat]
    cases neg
    · show parseVal (f + 1) ('0' :: '.' :: '0' :: rest)
        = some (Value.float (.zero false), rest)
      rw [show ('0' :: '.' :: '0' :: rest : List Char)
          = '0' :: (([] : List Char) ++ ('.' :: (['0'] ++ rest))) from rfl]
      rw [parseVal_numToken_pos f '0' [] ('.' :: (['0'] ++ rest)) (by decide)
        (by intro c hc; simp at hc)
        (by intro x xs hx; injection hx with hx1 hx2; rw [← hx1]; decide)]
      rw [hfrac, hmk]
    · show parseVal (f + 1) ('-' :: '0' :: '.' :: '0' :: rest)
        = some (Value.float (.zero true), rest)
      rw [show ('-' :: '0' :: '.' :: '0' :: rest : List Char)
          = '-' :: '0' :: (([] : List Char) ++ ('.' :: (['0'] ++ rest))) from rfl]
      rw [parseVal_numToken_neg f '0' [] ('.' :: (['0'] ++ rest)) (by decide)
        (by intro c hc; simp at hc)
        (by intro x xs hx; injection hx with hx1 hx2; rw [← hx1]; decide)]
      rw [hfrac, hmk]
  | finite neg lead last e =>
    obtain ⟨d, ds1, tail1, hbody, hd, hall1, htail1, hnum⟩ :=
      parseNumTail_floatBody neg lead last e rest hrest
    cases neg
    · show parseVal (f + 1) (floatBody (natChars (PyFloat.sig lead last)) e ++ rest)
        = some (Value.float (.finite false lead last e), rest)
      rw [hbody,
        show ((d :: ds1) ++ tail1) ++ rest = d :: (ds1 ++ (tail1 ++ rest)) by simp,
        parseVal_numToken_pos f d ds1 (tail1 ++ rest) hd hall1 htail1, hnum]
    · show parseVal (f + 1)
          (('-' :: floatBody (natChars (PyFloat.sig lead last)) e) ++ rest)
        = some (Value.float (.finite true lead last e), rest)
      rw [hbody,
        show ('-' :: ((d :: ds1) ++ tail1)) ++ rest = '-' :: d :: (ds1 ++ (tail1 ++ rest))
          by simp,
        parseVal_numToken_neg f d ds1 (tail1 ++ rest) hd hall1 htail1, hnum]

theorem parse_rt : ∀ fuel : Nat,
    (∀ (v : Value) (rest : List Char), sizeV v ≤ fuel →
      (∀ c cs, rest = c :: cs → c = ',' ∨ c = ':' ∨ c = ']' ∨ c = ')' ∨ c = '\x7d') →
      parseVal fuel (encChars v ++ rest) = some (v, rest))
    ∧ (∀ (close : Char) (vs : List Value) (rest : List Char),
        (close = ']' ∨ close = ')' ∨ close = '\x7d') → sizeL vs ≤ fuel →
        parseElemsRest fuel close (sepTail vs ++ close :: rest) = some (vs, rest))
    ∧ (∀ (ps : List (Value × Value)) (rest : List Char), sizeP ps ≤ fuel →
        parsePairsRest fuel (pairsTail ps ++ '\x7d' :: rest) = some (ps, rest)) := by
  intro fuel
  induction fuel using Nat.strong_induction_on with
  | _ fuel ih =>
    refine ⟨?_, ?_, ?_⟩
    · intro v rest hsize hrest
      have hge := sizeV_ge v
      obtain ⟨f, rfl⟩ : ∃ f, fuel = f + 1 := ⟨fuel - 1, by omega⟩
      cases v with
      | str s =>
        rcases quoteChoice_cases s.data with hq | hq
        · rw [show encChars (Value.str s) = '\x27' :: (escBody '\x27' s.data ++ ['\x27'])
              from by simp [encChars, strChars, hq],
            List.cons_append, parseVal_cons f _ _ (by decide), if_pos rfl,
            List.append_assoc, List.singleton_append,
            parseStrBody_rt '\x27' (Or.inl rfl) s.data rest]
          rfl
        · rw [show encChars (Value.str s) = '"' :: (escBody '"' s.data ++ ['"'])
              from by simp [encChars, strChars, hq],
            List.cons_append, parseVal_cons f _ _ (by decide),
            if_neg (by decide), if_pos rfl,
            List.append_assoc, List.singleton_append,
            parseStrBody_rt '"' (Or.inr rfl) s.data rest]
          rfl
      | int n =>
        have hrest' : ∀ x xs, rest = x :: xs → x.isDigit = false := by
          intro x xs hx
          rcases hrest x xs hx with h | h | h | h | h <;> subst h <;> decide
        cases n with
        | ofNat m =>
          obtain ⟨d, ds, hnat, hdig⟩ := natChars_cons m
          have hall : ∀ x ∈ ds, x.isDigit = true := by
            intro x hx
            exact natChars_digits m x (by rw [hnat]; exact List.mem_cons_of_mem _ hx)
          have hval : digitsVal (d.toNat - 48) ds = m := by
            have h0 := digitsVal_natChars m
            rw [hnat, digitsVal_cons] at h0
            simpa using h0
          rw [show encChars (Value.int (Int.ofNat m)) = natChars m from rfl, hnat,
            List.cons_append, parseVal_numToken_pos f d ds rest hdig hall hrest', hval,
            parseNumTail_boundary false m rest hrest]
          simp [applySign]
        | negSucc m =>
          obtain ⟨d, ds, hnat, hdig⟩ := natChars_cons (m + 1)
          have hall : ∀ x ∈ ds, x.isDigit = true := by
            intro x hx
            exact natChars_digits (m + 1) x (by rw [hnat]; exact List.mem_cons_of_mem _ hx)
          have hval : digitsVal (d.toNat - 48) ds = m + 1 := by
            have h0 := digitsVal_natChars (m + 1)
            rw [hnat, digitsVal_cons] at h0
            simpa using h0
          rw [show encChars (Value.int (Int.negSucc m)) = '-' :: natChars (m + 1) from rfl,
            List.cons_append, hnat, List.cons_append,
            parseVal_numToken_neg f d ds rest hdig hall hrest', hval,
            parseNumTail_boundary true (m + 1) rest hrest]
          have hneg : applySign true (m + 1) = Int.negSucc m := by
            unfold applySign
            rw [if_pos rfl, Int.negSucc_eq]
            push_cast
            ring
          rw [hneg]
      | float pf =>
        rw [show encChars (Value.float pf) = floatChars pf from rfl]
        exact parseVal_floatChars f pf rest hrest
      | bool b =>
        cases b with
        | true =>
          rw [show encChars (Value.bool true) ++ rest = 'T' :: (['r', 'u', 'e'] ++ rest) from rfl,
            parseVal_cons f _ _ (by decide)]
          rw [if_neg (by decide), if_neg (by decide), if_neg (by decide), if_neg (by decide),
            if_neg (by decide), if_pos rfl, expectChars_append]
          rfl
        | false =>
          rw [show encChars (Value.bool false) ++ rest
              = 'F' :: (['a', 'l', 's', 'e'] ++ rest) from rfl,
            parseVal_cons f _ _ (by decide)]
          rw [if_neg (by decide), if_neg (by decide), if_neg (by decide), if_neg (by decide),
            if_neg (by decide), if_neg (by decide), if_pos rfl, expectChars_append]
          rfl
      | pyNone =>
        rw [show encChars Value.pyNone ++ rest = 'N' :: (['o', 'n', 'e'] ++ rest) from rfl,
          parseVal_cons f _ _ (by decide)]
        rw [if_neg (by decide), if_neg (by decide), if_neg (by decide), if_neg (by decide),
          if_neg (by decide), if_neg (by decide), if_neg (by decide), if_pos rfl,
          expectChars_append]
        rfl
      | list vs =>
        rw [show encChars (Value.list vs) ++ rest = '[' :: (encElems vs ++ (']' :: rest)) from by
            rw [show encChars (Value.list vs) = '[' :: (encElems vs ++ [']']) from rfl]
            simp,
          parseVal_cons f _ _ (by decide)]
        rw [if_neg (by decide), if_neg (by decide), if_pos rfl]
        obtain ⟨g, rfl⟩ : ∃ g, f = g + 1 := by
          refine ⟨f - 1, ?_⟩
          have := sizeL_ge vs
          simp [sizeV] at hsize
          omega
        cases vs with
        | nil =>
          rw [show encElems ([] : List Value) ++ (']' :: rest) = ']' :: rest from rfl,
            parseListBody_cons g _ _ (by decide), if_pos rfl]
        | cons v1 vs1 =>
          rw [encElems_eq v1 vs1, List.append_assoc]
          obtain ⟨c, cs, hc, hg2⟩ := encChars_cons v1
          have hIH1 := (ih g (by omega)).1 v1 (sepTail vs1 ++ ']' :: rest)
            (by simp [sizeV, sizeL] at hsize; omega)
            (boundary_sepTail vs1 ']' (Or.inl rfl) rest)
          have hIH2 := (ih g (by omega)).2.1 ']' vs1 rest (Or.inl rfl)
            (by simp [sizeV, sizeL] at hsize; omega)
          rw [hc, List.cons_append, parseListBody_cons g _ _ (goodStart_not_ws hg2),
            if_neg (goodStart_ne_close hg2).1, ← List.cons_append, ← hc]
          simp only [hIH1, hIH2]
      | tuple vs =>
        rw [show encChars (Value.tuple vs) ++ rest
            = '(' :: ((match vs with
              | [] => [')']
              | [v] => encChars v ++ [',', ')']
              | v :: w :: vs => encElems (v :: w :: vs) ++ [')']) ++ rest) from by
            cases vs with
            | nil => rfl
            | cons v1 vs1 => cases vs1 <;> rfl,
          parseVal_cons f _ _ (by decide)]
        rw [if_neg (by decide), if_neg (by decide), if_neg (by decide), if_pos rfl]
        obtain ⟨g, rfl⟩ : ∃ g, f = g + 1 := by
          refine ⟨f - 1, ?_⟩
          have := sizeL_ge vs
          simp [sizeV] at hsize
          omega
        cases vs with
        | nil =>
          rw [show ([')'] ++ rest : List Char) = ')' :: rest from rfl,
            parseParenBody_cons g _ _ (by decide), if_pos rfl]
        | cons v1 vs1 =>
          cases vs1 with
          | nil =>
            obtain ⟨g2, rfl⟩ : ∃ g2, g = g2 + 1 := by
              refine ⟨g - 1, ?_⟩
              have := sizeV_ge v1
              simp [sizeV, sizeL] at hsize
              omega
            rw [show (encChars v1 ++ [',', ')']) ++ rest
                = encChars v1 ++ (',' :: ')' :: rest) from by simp]
            obtain ⟨c, cs, hc, hg2⟩ := encChars_cons v1
            have hIH1 := (ih (g2 + 1) (by omega)).1 v1 (',' :: ')' :: rest)
              (by simp [sizeV, sizeL] at hsize; omega)
              (by intro x xs hx; injection hx with h1 _; subst h1; simp)
            rw [hc, List.cons_append, parseParenBody_cons (g2 + 1) _ _ (goodStart_not_ws hg2),
              if_neg (goodStart_ne_close hg2).2.1, ← List.cons_append, ← hc]
            simp +decide [hIH1, skipWs_not_ws (show isWsChar ',' = false from by decide),
              parseElemsRest_close g2 ')' rest (Or.inr (Or.inl rfl))]
          | cons v2 vs2 =>
            rw [show (encElems (v1 :: v2 :: vs2) ++ [')']) ++ rest
                = encElems (v1 :: v2 :: vs2) ++ (')' :: rest) from by simp,
              encElems_eq v1 (v2 :: vs2), List.append_assoc]
            obtain ⟨c, cs, hc, hg2⟩ := encChars_cons v1
            have hIH1 := (ih g (by omega)).1 v1 (sepTail (v2 :: vs2) ++ ')' :: rest)
              (by simp [sizeV, sizeL] at hsize; omega)
              (boundary_sepTail (v2 :: vs2) ')' (Or.inr (Or.inl rfl)) rest)
            have hIH2 := (ih g (by omega)).2.1 ')' (v2 :: vs2) rest (Or.inr (Or.inl rfl))
              (by simp [sizeV, sizeL] at hsize ⊢; omega)
            rw [hc, List.cons_append, parseParenBody_cons g _ _ (goodStart_not_ws hg2),
              if_neg (goodStart_ne_close hg2).2.1, ← List.cons_append, ← hc]
            rw [show sepTail (v2 :: vs2) ++ ')' :: rest
                = ',' :: (' ' :: (encChars v2 ++ (sepTail vs2 ++ ')' :: rest))) from by
              simp [sepTail]] at hIH1 hIH2 ⊢
            simp +decide [hIH1, hIH2, skipWs_not_ws (show isWsChar ',' = false from by decide)]
      | set vs =>
        cases vs with
        | nil =>
          rw [show encChars (Value.set []) ++ rest
              = 's' :: (['e', 't', '(', ')'] ++ rest) from rfl,
            parseVal_cons f _ _ (by decide)]
          rw [if_neg (by decide), if_neg (by decide), if_neg (by decide), if_neg (by decide),
            if_neg (by decide), if_neg (by decide), if_neg (by decide), if_neg (by decide),
            if_pos rfl, expectChars_append]
          rfl
        | cons v1 vs1 =>
          rw [show encChars (Value.set (v1 :: vs1)) ++ rest
              = '\x7b' :: (encElems (v1 :: vs1) ++ ('\x7d' :: rest)) from by
            rw [show encChars (Value.set (v1 :: vs1))
                = '\x7b' :: (encElems (v1 :: vs1) ++ ['\x7d']) from rfl]
            simp,
            parseVal_cons f _ _ (by decide)]
          rw [if_neg (by decide), if_neg (by decide), if_neg (by decide), if_neg (by decide),
            if_pos rfl]
          obtain ⟨g, rfl⟩ : ∃ g, f = g + 1 := by
            refine ⟨f - 1, ?_⟩
            have := sizeV_ge v1
            simp [sizeV, sizeL] at hsize
            omega
          rw [encElems_eq v1 vs1, List.append_assoc]
          obtain ⟨c, cs, hc, hg2⟩ := encChars_cons v1
          have hIH1 := (ih g (by omega)).1 v1 (sepTail vs1 ++ '\x7d' :: rest)
            (by simp [sizeV, sizeL] at hsize; omega)
            (boundary_sepTail vs1 '\x7d' (Or.inr (Or.inr rfl)) rest)
          have hIH2 := (ih g (by omega)).2.1 '\x7d' vs1 rest (Or.inr (Or.inr rfl))
            (by simp [sizeV, sizeL] at hsize; omega)
          rw [hc, List.cons_append, parseBraceBody_cons g _ _ (goodStart_not_ws hg2),
            if_neg (goodStart_ne_close hg2).2.2.1, ← List.cons_append, ← hc]
          cases vs1 with
          | nil =>
            simp only [sepTail, List.nil_append] at hIH1 hIH2 ⊢
            simp +decide [hIH1, hIH2,
              skipWs_not_ws (show isWsChar '\x7d' = false from by decide)]
          | cons v2 vs2 =>
            rw [show sepTail (v2 :: vs2) ++ '\x7d' :: rest
                = ',' :: (' ' :: (encChars v2 ++ (sepTail vs2 ++ '\x7d' :: rest))) from by
              simp [sepTail]] at hIH1 hIH2 ⊢
            simp +decide [hIH1, hIH2, skipWs_not_ws (show isWsChar ',' = false from by decide)]
      | dict ps =>
        rw [show encChars (Value.dict ps) ++ rest
            = '\x7b' :: (encPairs ps ++ ('\x7d' :: rest)) from by
          rw [show encChars (Value.dict ps) = '\x7b' :: (encPairs ps ++ ['\x7d']) from rfl]
          simp,
          parseVal_cons f _ _ (by decide)]
        rw [if_neg (by decide), if_neg (by decide), if_neg (by decide), if_neg (by decide),
          if_pos rfl]
        obtain ⟨g, rfl⟩ : ∃ g, f = g + 1 := by
          refine ⟨f - 1, ?_⟩
          have := sizeP_ge ps
          simp [sizeV] at hsize
          omega
        cases ps with
        | nil =>
          rw [show encPairs ([] : List (Value × Value)) ++ ('\x7d' :: rest) = '\x7d' :: rest
              from rfl,
            parseBraceBody_cons g _ _ (by decide), if_pos rfl]
        | cons p ps1 =>
          obtain ⟨k, w⟩ := p
          rw [encPairs_eq k w ps1]
          rw [show (encChars k ++ ':' :: ' ' :: (encChars w ++ pairsTail ps1)) ++ ('\x7d' :: rest)
              = encChars k ++ (':' :: ' ' :: (encChars w ++ (pairsTail ps1 ++ '\x7d' :: rest)))
            from by simp]
          obtain ⟨c, cs, hc, hg2⟩ := encChars_cons k
          have hIH1 := (ih g (by omega)).1 k
            (':' :: ' ' :: (encChars w ++ (pairsTail ps1 ++ '\x7d' :: rest)))
            (by simp [sizeV, sizeP] at hsize; omega)
            (by intro x xs hx; injection hx with h1 _; subst h1; simp)
          have hIHw := (ih g (by omega)).1 w (pairsTail ps1 ++ '\x7d' :: rest)
            (by simp [sizeV, sizeP] at hsize; omega)
            (boundary_pairsTail ps1 rest)
          have hIH3 := (ih g (by omega)).2.2 ps1 rest
            (by simp [sizeV, sizeP] at hsize; omega)
          rw [hc, List.cons_append, parseBraceBody_cons g _ _ (goodStart_not_ws hg2),
            if_neg (goodStart_ne_close hg2).2.2.1, ← List.cons_append, ← hc]
          simp +decide [hIH1, hIHw, hIH3, parseVal_ws,
            skipWs_not_ws (show isWsChar ':' = false from by decide)]
    · intro close vs rest hclose hsize
      have hge := sizeL_ge vs
      obtain ⟨f, rfl⟩ : ∃ f, fuel = f + 1 := ⟨fuel - 1, by omega⟩
      have hcnw : isWsChar close = false := by
        rcases hclose with h | h | h <;> subst h <;> decide
      cases vs with
      | nil =>
        rw [show sepTail ([] : List Value) ++ close :: rest = close :: rest from by simp [sepTail],
          parseElemsRest_cons f close close rest hcnw, if_pos rfl]
      | cons v vs1 =>
        rw [show sepTail (v :: vs1) ++ close :: rest
            = ',' :: (' ' :: (encChars v ++ (sepTail vs1 ++ close :: rest))) from by
          simp [sepTail]]
        rw [parseElemsRest_cons f close ',' _ (by decide)]
        have hne : ¬ (',' = close) := by
          rcases hclose with h | h | h <;> subst h <;> decide
        rw [if_neg hne, if_pos rfl]
        have hskip : skipWs (' ' :: (encChars v ++ (sepTail vs1 ++ close :: rest)))
            = encChars v ++ (sepTail vs1 ++ close :: rest) := by
          rw [skipWs_ws (by decide), skipWs_enc]
        obtain ⟨c, cs, hc, hg2⟩ := encChars_cons v
        have hdne : ¬ (c = close) := by
          rcases hclose with h | h | h <;> subst h
          exacts [(goodStart_ne_close hg2).1, (goodStart_ne_close hg2).2.1,
            (goodStart_ne_close hg2).2.2.1]
        have hIH1 := (ih f (by omega)).1 v (sepTail vs1 ++ close :: rest)
          (by simp [sizeL] at hsize; omega)
          (boundary_sepTail vs1 close hclose rest)
        have hIH2 := (ih f (by omega)).2.1 close vs1 rest hclose
          (by simp [sizeL] at hsize; omega)
        rw [hskip, hc, List.cons_append]
        rw [hc, List.cons_append] at hIH1
        simp +decide [hdne, hIH1, hIH2, parseVal_ws]
    · intro ps rest hsize
      have hge := sizeP_ge ps
      obtain ⟨f, rfl⟩ : ∃ f, fuel = f + 1 := ⟨fuel - 1, by omega⟩
      cases ps with
      | nil =>
        rw [show pairsTail ([] : List (Value × Value)) ++ '\x7d' :: rest = '\x7d' :: rest
            from by simp [pairsTail],
          parsePairsRest_cons f '\x7d' rest (by decide), if_pos rfl]
      | cons p ps1 =>
        obtain ⟨k, w⟩ := p
        rw [show pairsTail ((k, w) :: ps1) ++ '\x7d' :: rest
            = ',' :: (' ' :: (encChars k
                ++ (':' :: ' ' :: (encChars w ++ (pairsTail ps1 ++ '\x7d' :: rest)))))
          from by simp [pairsTail]]
        rw [parsePairsRest_cons f ',' _ (by decide)]
        rw [if_neg (by decide), if_pos rfl]
        have hskip : skipWs (' ' :: (encChars k
            ++ (':' :: ' ' :: (encChars w ++ (pairsTail ps1 ++ '\x7d' :: rest)))))
            = encChars k ++ (':' :: ' ' :: (encChars w ++ (pairsTail ps1 ++ '\x7d' :: rest))) := by
          rw [skipWs_ws (by decide), skipWs_enc]
        obtain ⟨c, cs, hc, hg2⟩ := encChars_cons k
        have hIH1 := (ih f (by omega)).1 k
          (':' :: ' ' :: (encChars w ++ (pairsTail ps1 ++ '\x7d' :: rest)))
          (by simp [sizeP] at hsize; omega)
          (by intro x xs hx; injection hx with h1 _; subst h1; simp)
        have hIHw := (ih f (by omega)).1 w (pairsTail ps1 ++ '\x7d' :: rest)
          (by simp [sizeP] at hsize; omega)
          (boundary_pairsTail ps1 rest)
        have hIH3 := (ih f (by omega)).2.2 ps1 rest
          (by simp [sizeP] at hsize; omega)
        rw [hskip, hc, List.cons_append]
        rw [hc, List.cons_append] at hIH1
        simp +decide [(goodStart_ne_close hg2).2.2.1, hIH1, hIHw, hIH3, parseVal_ws,
          skipWs_not_ws (show isWsChar ':' = false from by decide)]

mutual
theorem sizeV_le_enc : ∀ v : Value, sizeV v ≤ 2 * (encChars v).length + 2
  | .str s => by simp [sizeV]
  | .int n => by simp [sizeV]
  | .float pf => by simp [sizeV]
  | .bool b => by simp [sizeV]
  | .pyNone => by simp [sizeV]
  | .list vs => by
    have h := sizeL_le_enc vs
    simp only [sizeV, encChars, List.length_cons, List.length_append, List.length_nil]
    omega
  | .tuple [] => by simp [sizeV, sizeL, encChars]
  | .tuple [v] => by
    have h := sizeV_le_enc v
    simp only [sizeV, sizeL, encChars, List.length_cons, List.length_append, List.length_nil]
    omega
  | .tuple (v :: w :: vs) => by
    have h := sizeL_le_enc (v :: w :: vs)
    simp only [sizeV, encChars, List.length_cons, List.length_append, List.length_nil] at h ⊢
    omega
  | .set [] => by simp [sizeV, sizeL, encChars]
  | .set (v :: vs) => by
    have h := sizeL_le_enc (v :: vs)
    simp only [sizeV, encChars, List.length_cons, List.length_append, List.length_nil] at h ⊢
    omega
  | .dict ps => by
    have h := sizeP_le_enc ps
    simp only [sizeV, encChars, List.length_cons, List.length_append, List.length_nil]
    omega

theorem sizeL_le_enc : ∀ vs : List Value, sizeL vs ≤ 2 * (encElems vs).length + 4
  | [] => by simp [sizeL, encElems]
  | [v] => by
    have h := sizeV_le_enc v
    simp only [sizeL, encElems]
    omega
  | v :: w :: vs => by
    have h1 := sizeV_le_enc v
    have h2 := sizeL_le_enc (w :: vs)
    simp only [sizeL, encElems, List.length_cons, List.length_append] at h2 ⊢
    omega

theorem sizeP_le_enc : ∀ ps : List (Value × Value), sizeP ps ≤ 2 * (encPairs ps).length + 4
  | [] => by simp [sizeP, encPairs]
  | [(k, w)] => by
    have h1 := sizeV_le_enc k
    have h2 := sizeV_le_enc w
    simp only [sizeP, encPairs, List.length_cons, List.length_append]
    omega
  | (k, w) :: p :: ps => by
    have h1 := sizeV_le_enc k
    have h2 := sizeV_le_enc w
    have h3 := sizeP_le_enc (p :: ps)
    simp only [sizeP, encPairs, List.length_cons, List.length_append] at h3 ⊢
    omega
end

theorem evalLiteral_encChars (v : Value) : evalLiteral (encChars v) = some v := by
  unfold evalLiteral
  have hsz : sizeV v ≤ 2 * (encChars v).length + 4 :=
    le_trans (sizeV_le_enc v) (by omega)
  have h := (parse_rt (2 * (encChars v).length + 4)).1 v [] hsz
    (by intro c cs hc; exact List.noConfusion hc)
  rw [List.append_nil] at h
  rw [h]
  rfl

theorem serveLoop_length (t : Target) :
    ∀ lines : List String, (∀ l ∈ lines, l ≠ "") →
    (NanoNDSPHandler.serveLoop t lines).length = lines.length := by
  intro lines
  induction lines with
  | nil => intro _; rfl
  | cons l ls ih =>
    intro h
    simp only [NanoNDSPHandler.serveLoop]
    rw [if_neg (h l (by simp))]
    simp [ih (fun x hx => h x (by simp [hx]))]

theorem not_mem_rpc_of_underscore {name : String} (h : startsWithUnderscore name = true)
    (t : Target) (d : Value) :
    (Value.str name, d) ∉ NanoNDSPHandler.rpcMethodsEntries t := by
  intro hmem
  unfold NanoNDSPHandler.rpcMethodsEntries at hmem
  obtain ⟨p, hp, hpe⟩ := List.mem_map.mp hmem
  have hname : p.1 = name := by
    have := congrArg Prod.fst hpe
    simpa using this
  have hno := (List.mem_filter.mp hp).2
  rw [hname] at hno
  simp [h] at hno

theorem kwargsOfValue_mapped : ∀ kw : List (String × Value),
    kwargsOfValue (Value.dict (kw.map (fun kv => (Value.str kv.1, kv.2)))) = Except.ok kw := by
  intro kw
  induction kw with
  | nil => rfl
  | cons kv rest ih =>
    obtain ⟨k, v⟩ := kv
    have hstep : kwargsOfValue
        (Value.dict (((k, v) :: rest).map (fun kv => (Value.str kv.1, kv.2))))
        = match kwargsOfValue (Value.dict (rest.map (fun kv => (Value.str kv.1, kv.2)))) with
          | Except.error e => Except.error e
          | Except.ok r => Except.ok ((k, v) :: r) := rfl
    rw [hstep, ih]

/-- A well-formed `"call"` request object, as decoded from a client line. -/
def callRequest (name : String) (args : List Value) (kwargs : List (String × Value)) : Value :=
  Value.dict [(Value.str "action", Value.str "call"), (Value.str "name", Value.str name),
    (Value.str "args", Value.list args),
    (Value.str "kwargs", Value.dict (kwargs.map (fun kv => (Value.str kv.1, kv.2))))]

set_option maxRecDepth 8000

/-- C1 (counterexample to the claim as stated): the round-trip fails on the
integer 13 — its encoding "13" does not start with a brace or bracket, so
`decode` returns it as the raw string "13", which is not the integer 13. -/
theorem c1_round_trip_counterexample :
    MyPyon.decode (MyPyon.encode (Value.int 13)) = Value.str "13"
    ∧ Value.str "13" ≠ Value.int 13 := by
  refine ⟨by decide, by decide⟩

/-- C1 (amended): decode(encode(v)) is observably equivalent to v for every
value v whose encoding begins with a brace or a bracket — that is, every
top-level mapping, ordered sequence, or nonempty set; for any other value
decode returns the encoded text as a raw string (see the counterexample). -/
theorem c1_round_trip_amended :
    ∀ v : Value,
    ((MyPyon.encode v).data.headD ' ' = '\x7b' ∨ (MyPyon.encode v).data.headD ' ' = '[') →
    MyPyon.decode (MyPyon.encode v) = v := by
  intro v h
  obtain ⟨c, cs, hc, hg⟩ := encChars_cons v
  have hdata : (MyPyon.encode v).data = encChars v := rfl
  have h' : c = '\x7b' ∨ c = '[' := by
    rw [hdata, hc] at h
    simpa using h
  simp only [MyPyon.decode, hdata, hc]
  rw [if_pos h', ← hc, evalLiteral_encChars]

/-- C1 witness: a concrete nested mapping (with a list, negative integer,
the floats 1.5, -1e+16 and 0.0, a tuple, a set, a string with a quote, and
None inside) round-trips through the amended theorem. -/
theorem c1_round_trip_amended_witness :
    ((MyPyon.encode (Value.dict [(Value.str "k",
        Value.list [Value.int 1, Value.int (-2),
          Value.float (.finite false 1 (4 : Fin 9) (-1)),
          Value.float (.finite true 0 (0 : Fin 9) 16), Value.float (.zero false),
          Value.tuple [Value.bool true],
          Value.set [Value.str "a\x27b"], Value.pyNone])])).data.headD ' ' = '\x7b'
      ∨ (MyPyon.encode (Value.dict [(Value.str "k",
        Value.list [Value.int 1, Value.int (-2),
          Value.float (.finite false 1 (4 : Fin 9) (-1)),
          Value.float (.finite true 0 (0 : Fin 9) 16), Value.float (.zero false),
          Value.tuple [Value.bool true],
          Value.set [Value.str "a\x27b"], Value.pyNone])])).data.headD ' ' = '[')
    ∧ MyPyon.decode (MyPyon.encode (Value.dict [(Value.str "k",
        Value.list [Value.int 1, Value.int (-2),
          Value.float (.finite false 1 (4 : Fin 9) (-1)),
          Value.float (.finite true 0 (0 : Fin 9) 16), Value.float (.zero false),
          Value.tuple [Value.bool true],
          Value.set [Value.str "a\x27b"], Value.pyNone])]))
      = Value.dict [(Value.str "k",
        Value.list [Value.int 1, Value.int (-2),
          Value.float (.finite false 1 (4 : Fin 9) (-1)),
          Value.float (.finite true 0 (0 : Fin 9) 16), Value.float (.zero false),
          Value.tuple [Value.bool true],
          Value.set [Value.str "a\x27b"], Value.pyNone])] :=
  ⟨by decide, c1_round_trip_amended _ (by decide)⟩

/-- C2 (confirmed): in the SERVING state every received request line gets
exactly one response line (the loop length matches and each step prepends a
single envelope and continues with the rest of the stream, so the connection
keeps serving after a Failed envelope); on dispatcher success with result v
the envelope is the encoded Ok envelope, and on any dispatch failure with
message e it is the encoded Failed envelope. -/
theorem c2_serving_envelopes :
    ∀ (t : Target) (lines : List String) (line : String) (rest : List String)
      (v : Value) (e : String),
    ((∀ l ∈ lines, l ≠ "") →
      (NanoNDSPHandler.serveLoop t lines).length = lines.length)
    ∧ (line ≠ "" →
      NanoNDSPHandler.serveLoop t (line :: rest)
        = (NanoNDSPHandler.processAndPyonize t (MyPyon.decode line) ++ "\n")
            :: NanoNDSPHandler.serveLoop t rest)
    ∧ (NanoNDSPHandler.processAction t (MyPyon.decode line) = Except.ok (PyObj.val v) →
      NanoNDSPHandler.processAndPyonize t (MyPyon.decode line) = MyPyon.encode (okEnvelope v))
    ∧ (NanoNDSPHandler.processAction t (MyPyon.decode line) = Except.error e →
      NanoNDSPHandler.processAndPyonize t (MyPyon.decode line)
        = MyPyon.encode (failedEnvelope e)) := by
  intro t lines line rest v e
  refine ⟨serveLoop_length t lines, ?_, ?_, ?_⟩
  · intro h
    simp only [NanoNDSPHandler.serveLoop]
    rw [if_neg h]
  · intro h
    unfold NanoNDSPHandler.processAndPyonize
    rw [h]
    rfl
  · intro h
    unfold NanoNDSPHandler.processAndPyonize
    rw [h]

/-- C2 witness: a failed request (unknown action) followed by a successful
`add` call; the loop produces one envelope per line, keeps serving after the
failure, and the Ok/Failed envelope shapes are as dispatched. -/
theorem c2_serving_envelopes_witness :
    (NanoNDSPHandler.serveLoop adderTarget
      ["\x7b\"action\": \"bogus\"\x7d\n",
       "\x7b\"action\": \"call\", \"name\": \"add\", \"args\": [4, 9], \"kwargs\": \x7b\x7d\x7d\n"]).length = 2
    ∧ NanoNDSPHandler.processAndPyonize adderTarget
        (MyPyon.decode "\x7b\"action\": \"call\", \"name\": \"add\", \"args\": [4, 9], \"kwargs\": \x7b\x7d\x7d\n")
        = MyPyon.encode (okEnvelope (Value.int 13))
    ∧ NanoNDSPHandler.processAndPyonize adderTarget
        (MyPyon.decode "\x7b\"action\": \"bogus\"\x7d\n")
        = MyPyon.encode (failedEnvelope "Unknown action: bogus") := by
  refine ⟨?_, ?_, ?_⟩
  · exact (c2_serving_envelopes adderTarget
      ["\x7b\"action\": \"bogus\"\x7d\n",
       "\x7b\"action\": \"call\", \"name\": \"add\", \"args\": [4, 9], \"kwargs\": \x7b\x7d\x7d\n"]
      "" [] Value.pyNone "").1 (by decide)
  · exact (c2_serving_envelopes adderTarget []
      "\x7b\"action\": \"call\", \"name\": \"add\", \"args\": [4, 9], \"kwargs\": \x7b\x7d\x7d\n"
      [] (Value.int 13) "").2.2.1 (by rfl)
  · exact (c2_serving_envelopes adderTarget [] "\x7b\"action\": \"bogus\"\x7d\n"
      [] Value.pyNone "Unknown action: bogus").2.2.2 (by rfl)

/-- C3 (confirmed): a first line other than the exact magic bytes makes the
handler return with zero bytes written, whatever follows. -/
theorem c3_bad_magic_silent :
    ∀ (cfg : ServerCfg) (line : String) (rest : List String),
    line ≠ "ARTIQ pc_rpc\n" →
    NanoNDSPHandler.handle cfg (line :: rest) = [] := by
  intro cfg line rest h
  simp only [NanoNDSPHandler.handle]
  rw [if_pos h]

/-- C3 witness: a wrong magic line on the example registry produces no output. -/
theorem c3_bad_magic_silent_witness :
    NanoNDSPHandler.handle adderCfg ["bogus\n", "adder\n"] = [] :=
  c3_bad_magic_silent adderCfg "bogus\n" ["adder\n"] (by decide)

/-- C4 (confirmed): after a valid magic handshake, a line naming a target
absent from the registry closes the connection with only the catalog line
written — zero bytes for the target-selection step, no error message. -/
theorem c4_unknown_target_silent :
    ∀ (cfg : ServerCfg) (line : String) (rest : List String),
    line ≠ "" →
    cfg.targets.lookup (line.dropRight 1) = none →
    NanoNDSPHandler.handle cfg ("ARTIQ pc_rpc\n" :: line :: rest)
      = [NanoNDSPHandler.catalogLine cfg] := by
  intro cfg line rest h1 h2
  simp only [NanoNDSPHandler.handle]
  rw [if_neg (by simp), if_neg h1, h2]

/-- C4 witness: selecting an unregistered target on the example registry
yields exactly the catalog line. -/
theorem c4_unknown_target_silent_witness :
    NanoNDSPHandler.handle adderCfg ["ARTIQ pc_rpc\n", "nosuch\n", "x"]
      = [NanoNDSPHandler.catalogLine adderCfg] :=
  c4_unknown_target_silent adderCfg "nosuch\n" ["x"] (by decide) (by rfl)

/-- C6 (confirmed): on the registry with the adder target, handshake,
target selection and the request
`{"action": "call", "name": "add", "args": [4, 9], "kwargs": {}}` produce
the encoded Ok envelope with ret 13 as the third and final written line; the
dispatcher invoked `add` with the request args as positionals and its
kwargs as keywords (second conjunct), and the concrete envelope text is
the repr of the Ok dict (third conjunct). -/
theorem c6_call_success :
    NanoNDSPHandler.handle adderCfg ["ARTIQ pc_rpc\n", "adder\n",
        "\x7b\"action\": \"call\", \"name\": \"add\", \"args\": [4, 9], \"kwargs\": \x7b\x7d\x7d\n"]
      = [NanoNDSPHandler.catalogLine adderCfg, NanoNDSPHandler.methodsLine adderTarget,
          MyPyon.encode (okEnvelope (Value.int 13)) ++ "\n"]
    ∧ NanoNDSPHandler.processAction adderTarget (MyPyon.decode
        "\x7b\"action\": \"call\", \"name\": \"add\", \"args\": [4, 9], \"kwargs\": \x7b\x7d\x7d\n")
      = addMethod.call [Value.int 4, Value.int 9] []
    ∧ MyPyon.encode (okEnvelope (Value.int 13))
      = "\x7b\x27status\x27: \x27ok\x27, \x27ret\x27: 13\x7d" := by
  refine ⟨by decide, by rfl, by decide⟩

/-- C7 (confirmed): the capability set sent after target selection lists
every `ismethod` member name with no underscore filtering, while the
`get_rpc_method_list` result excludes every name starting with an underscore
and maps each remaining name to its (argspec, docstring) descriptor; the
final conjunct is the exact dict the dispatcher returns for that action. -/
theorem c7_method_enumerations :
    ∀ (t : Target) (name : String) (m : Method),
    ((name, m) ∈ getmembers t →
      Value.str name ∈ NanoNDSPHandler.methodsSetElems t)
    ∧ (startsWithUnderscore name = true →
      ∀ d, (Value.str name, d) ∉ NanoNDSPHandler.rpcMethodsEntries t)
    ∧ ((name, m) ∈ getmembers t → startsWithUnderscore name = false →
      (Value.str name, NanoNDSPHandler.documentFunction m)
        ∈ NanoNDSPHandler.rpcMethodsEntries t)
    ∧ (NanoNDSPHandler.processAction t
        (Value.dict [(Value.str "action", Value.str "get_rpc_method_list")])
        = Except.ok (PyObj.val (Value.dict [
            (Value.str "docstring", optStrValue t.doc),
            (Value.str "methods", Value.dict (NanoNDSPHandler.rpcMethodsEntries t))]))) := by
  intro t name m
  refine ⟨?_, ?_, ?_, ?_⟩
  · intro h
    exact List.mem_map.mpr ⟨(name, m), h, rfl⟩
  · intro hu d
    exact not_mem_rpc_of_underscore hu t d
  · intro h hu
    unfold NanoNDSPHandler.rpcMethodsEntries
    exact List.mem_map.mpr ⟨(name, m), List.mem_filter.mpr ⟨h, by simp [hu]⟩, rfl⟩
  · rfl

/-- C7 witness: on the target with members `_hidden` and `add`, the
capability set contains `_hidden`, the filtered method list excludes it, and
`add` appears with its descriptor. -/
theorem c7_method_enumerations_witness :
    Value.str "_hidden" ∈ NanoNDSPHandler.methodsSetElems secretTarget
    ∧ (∀ d, (Value.str "_hidden", d) ∉ NanoNDSPHandler.rpcMethodsEntries secretTarget)
    ∧ (Value.str "add", NanoNDSPHandler.documentFunction addMethod)
        ∈ NanoNDSPHandler.rpcMethodsEntries secretTarget := by
  refine ⟨?_, ?_, ?_⟩
  · exact (c7_method_enumerations secretTarget "_hidden" hiddenMethod).1
      (show _ ∈ [("_hidden", hiddenMethod), ("add", addMethod)] from List.mem_cons_self _ _)
  · exact (c7_method_enumerations secretTarget "_hidden" hiddenMethod).2.1 (by decide)
  · exact (c7_method_enumerations secretTarget "add" addMethod).2.2.1
      (show _ ∈ [("_hidden", hiddenMethod), ("add", addMethod)] from
        List.mem_cons_of_mem _ (List.mem_cons_self _ _))
      (by decide)

/-- C9 (counterexample to the claim as stated): for a method whose returned
object has a repr that raises `Exception("boom")`, the dispatcher succeeds but the
encoding failure during Ok-envelope construction IS caught — the handler
returns an encoded Failed envelope carrying the message, because the `try`
block of `_process_and_pyonize` encloses the `pyon.encode` call. -/
theorem c9_encode_failure_counterexample :
    NanoNDSPHandler.processAction badTarget
        (callRequest "bad" [] []) = Except.ok (PyObj.badRepr "boom")
    ∧ NanoNDSPHandler.processAndPyonize badTarget (callRequest "bad" [] [])
        = MyPyon.encode (failedEnvelope "boom") := by
  refine ⟨by rfl, by rfl⟩

/-- C9 (amended): when the dispatcher succeeds but encoding the returned
object fails, the envelope layer catches the failure and sends an encoded
Failed envelope carrying the error message from the encoder — the failure is
guarded, not propagated. -/
theorem c9_encode_failure_guarded :
    ∀ (t : Target) (obj : Value) (r : PyObj) (msg : String),
    NanoNDSPHandler.processAction t obj = Except.ok r →
    encodeOkEnvelope r = Except.error msg →
    NanoNDSPHandler.processAndPyonize t obj = MyPyon.encode (failedEnvelope msg) := by
  intro t obj r msg h1 h2
  unfold NanoNDSPHandler.processAndPyonize
  simp only [h1, h2]

/-- C9 witness: the amended theorem applied to the target whose `bad` method
returns an object with a raising repr. -/
theorem c9_encode_failure_guarded_witness :
    NanoNDSPHandler.processAndPyonize badTarget (callRequest "bad" [] [])
      = MyPyon.encode (failedEnvelope "boom") :=
  c9_encode_failure_guarded badTarget (callRequest "bad" [] [])
    (PyObj.badRepr "boom") "boom" (by rfl) (by rfl)

/-- C10 (confirmed): the `"call"` dispatcher resolves the requested name by
plain attribute lookup among the members of the target with no underscore
filtering — any member, underscore-prefixed or not, is invoked with the
request args and kwargs — even though underscore-prefixed names are
excluded from the `get_rpc_method_list` result. -/
theorem c10_underscore_call_dispatch :
    ∀ (t : Target) (name : String) (m : Method) (args : List Value)
      (kwargs : List (String × Value)),
    t.members.lookup name = some m →
    (NanoNDSPHandler.processAction t (callRequest name args kwargs) = m.call args kwargs)
    ∧ (startsWithUnderscore name = true →
      ∀ d, (Value.str name, d) ∉ NanoNDSPHandler.rpcMethodsEntries t) := by
  intro t name m args kwargs hm
  constructor
  · have hstep : NanoNDSPHandler.processAction t (callRequest name args kwargs)
        = match t.members.lookup name with
          | none => Except.error ("\x27" ++ t.className
              ++ "\x27 object has no attribute \x27" ++ name ++ "\x27")
          | some m =>
            match kwargsOfValue
                (Value.dict (kwargs.map (fun kv => (Value.str kv.1, kv.2)))) with
            | Except.error e => Except.error e
            | Except.ok kws => m.call args kws := rfl
    rw [hstep, hm, kwargsOfValue_mapped]
  · intro hu d
    exact not_mem_rpc_of_underscore hu t d

/-- C10 witness: the underscore-prefixed `_hidden` member is callable
through the dispatcher while being absent from the filtered method list. -/
theorem c10_underscore_call_dispatch_witness :
    NanoNDSPHandler.processAction secretTarget (callRequest "_hidden" [] [])
        = hiddenMethod.call [] []
    ∧ (∀ d, (Value.str "_hidden", d) ∉ NanoNDSPHandler.rpcMethodsEntries secretTarget) := by
  refine ⟨?_, ?_⟩
  · exact (c10_underscore_call_dispatch secretTarget "_hidden" hiddenMethod [] [] (by rfl)).1
  · exact (c10_underscore_call_dispatch secretTarget "_hidden" hiddenMethod [] [] (by rfl)).2
      (by decide)
